import Mathlib

/-!
Verification of the BrowserOS build-system core: the module registry
(`registry.py`), the artifact store (`artifacts.py`) and the dependency
graph / topological-sort engine (`dependencies.py`).

The Python code is shallowly embedded:
* `dict` objects become insertion-ordered association lists
  (`List (String × α)`); `dict.__setitem__` replaces the value in place
  for an existing key and appends for a fresh key (`aset`), and lookup
  returns the entry for the key (`alookup`).
* Python `set` objects whose only observable uses are membership tests
  and iteration for counting become duplicate-free lists built with a
  guarded insert, exactly as the source builds them.
* raising an exception becomes returning `Except.error` carrying the
  structured data interpolated into the exception message.  Along every
  path a claim depends on, an exception propagates out of the call, so
  the state threaded by `Except` is the state along non-raising paths.
* `pathlib.Path` values are compared and stored by value; they are
  embedded as `String`.
* Python string comparison (used by `list.sort`) is lexicographic on
  code points; it is embedded as `charsLe` on `Char.toNat` lists.
-/

/-!
## Module registry (`registry.py`)
-/

/-!
## Artifact store (`artifacts.py`)
-/

/-!
## Dependency graph (`dependencies.py`)

`DependencyGraph` holds a registry plus the `_graph` (module →
dependency set) and `_producers` (artifact → producer module) dicts.
The Kahn loop is embedded with explicit fuel: `kahnMeasure` strictly
decreases at each iteration of the Python `while queue:` loop
(`processCurrent_measure` below), so running the loop with fuel
`kahnMeasure + 1` computes exactly the value of the unbounded loop.
-/

/-- Lookup in an insertion-ordered association list (Python `dict[k]` /
`k in dict`). -/
def alookup {α : Type} (l : List (String × α)) (k : String) : Option α :=
  (l.find? (fun p => p.1 == k)).map (fun p => p.2)

/-- Assignment `dict[k] = v`: replace the value of an existing key in
place, append a fresh key at the end. -/
def aset {α : Type} : List (String × α) → String → α → List (String × α)
  | [], k, v => [(k, v)]
  | (k', v') :: rest, k, v =>
    if k' == k then (k, v) :: rest else (k', v') :: aset rest k v

/-- Code-point comparison of character lists: the order Python uses to
compare strings. -/
def charsLe : List Char → List Char → Bool
  | [], _ => true
  | _ :: _, [] => false
  | c :: cs, d :: ds =>
    if c.toNat < d.toNat then true
    else if d.toNat < c.toNat then false
    else charsLe cs ds

/-- Python string `<=`: lexicographic on code points. -/
def strLe (a b : String) : Bool := charsLe a.data b.data

/-- One step of insertion sort under `strLe`. -/
def insertSorted (a : String) : List String → List String
  | [] => [a]
  | b :: rest => if strLe a b then a :: b :: rest else b :: insertSorted a rest

/-- Ascending sort of a list of strings: the embedding of Python
`list.sort()` on strings (same sorted result; equal strings are
indistinguishable, so stability is unobservable). -/
def sortStrings : List String → List String
  | [] => []
  | a :: rest => insertSorted a (sortStrings rest)

/-- Sortedness: every element is `strLe`-below all later elements. -/
def SortedLe : List String → Prop
  | [] => True
  | a :: rest => (∀ x ∈ rest, strLe a x = true) ∧ SortedLe rest

/-- The Python `CommandModule` class object referenced by a registration:
its `__name__` and the `requires` / `produces` / `description` class
attributes that `register` reads with `getattr` (with defaults `[]`,
`[]`, `"No description provided"` when absent). -/
structure CommandModuleClass where
  className : String
  requiresAttr : List String
  producesAttr : List String
  descriptionAttr : Option String
deriving DecidableEq

/-- `ModuleMetadata` dataclass from `registry.py`. -/
structure ModuleMetadata where
  name : String
  module_class : CommandModuleClass
  phase : String
  requires : List String
  produces : List String
  description : String
  platform : Option String
  enabled_by_default : Bool
deriving DecidableEq

/-- `ModuleRegistry`: the `_modules` dict mapping name to metadata. -/
structure ModuleRegistry where
  modules : List (String × ModuleMetadata)
deriving DecidableEq

/-- `ValueError` raised by `ModuleRegistry.register`, carrying the
colliding name and `existing.module_class.__name__`. -/
inductive RegistryError
  | duplicateModule (name ownerClass : String)
deriving DecidableEq

/-- `ModuleRegistry.get_metadata`. -/
def ModuleRegistry.get_metadata (r : ModuleRegistry) (name : String) : Option ModuleMetadata :=
  alookup r.modules name

/-- `ModuleRegistry.has`. -/
def ModuleRegistry.hasModule (r : ModuleRegistry) (name : String) : Bool :=
  (alookup r.modules name).isSome

/-- `ModuleRegistry.list_modules`. -/
def ModuleRegistry.list_modules (r : ModuleRegistry) : List String :=
  r.modules.map Prod.fst

/-- `ModuleRegistry.register`.  The result is the `_modules` mapping
after the call together with the exception raised, if any: the
duplicate check precedes every mutation, so on the error path the
mapping is returned untouched. -/
def ModuleRegistry.register (r : ModuleRegistry) (name : String)
    (module_class : CommandModuleClass) (phase : String)
    (requiresArg : Option (List String)) (producesArg : Option (List String))
    (descriptionArg : Option String) (platform : Option String)
    (enabled_by_default : Bool) : ModuleRegistry × Option RegistryError :=
  match alookup r.modules name with
  | some existing => (r, some (.duplicateModule name existing.module_class.className))
  | none =>
    let requires := requiresArg.getD module_class.requiresAttr
    let produces := producesArg.getD module_class.producesAttr
    let description := descriptionArg.getD (module_class.descriptionAttr.getD "No description provided")
    let metadata : ModuleMetadata :=
      ⟨name, module_class, phase, requires, produces, description, platform, enabled_by_default⟩
    (⟨aset r.modules name metadata⟩, none)

/-- `ArtifactMetadata` dataclass.  `pathlib.Path` values are embedded as
`String`; the `metadata` dict as an association list. -/
structure ArtifactMetadata where
  name : String
  paths : List String
  size : Option Int
  checksum : Option String
  signature : Option String
  metadata : List (String × String)
deriving DecidableEq

/-- `dict.update`: assign each pair of `upd` into `base` in order. -/
def dictUpdate (base upd : List (String × String)) : List (String × String) :=
  upd.foldl (fun b p => aset b p.1 p.2) base

/-- `ArtifactMetadata.add_path`: append the path unless already present. -/
def ArtifactMetadata.add_path (am : ArtifactMetadata) (path : String) : ArtifactMetadata :=
  if path ∈ am.paths then am else { am with paths := am.paths ++ [path] }

/-- `ArtifactMetadata.primary_path`. -/
def ArtifactMetadata.primary_path (am : ArtifactMetadata) : Option String :=
  match am.paths with
  | [] => none
  | p :: _ => some p

/-- `ArtifactManager`: the `_artifacts` dict. -/
structure ArtifactManager where
  artifacts : List (String × ArtifactMetadata)
deriving DecidableEq

/-- `KeyError` / `ValueError` raised by `ArtifactManager.get`. -/
inductive ArtifactError
  | notFound (name : String)
  | noPaths (name : String)
deriving DecidableEq

/-- `ArtifactManager.add`. -/
def ArtifactManager.add (mgr : ArtifactManager) (name path : String)
    (size : Option Int) (checksum : Option String) (signature : Option String)
    (metadata : Option (List (String × String))) : ArtifactManager :=
  match alookup mgr.artifacts name with
  | none =>
    ⟨aset mgr.artifacts name ⟨name, [path], size, checksum, signature, metadata.getD []⟩⟩
  | some existing =>
    let am1 := existing.add_path path
    let am2 := match size with
      | some s => { am1 with size := some s }
      | none => am1
    let am3 := match checksum with
      | some c => { am2 with checksum := some c }
      | none => am2
    let am4 := match signature with
      | some s => { am3 with signature := some s }
      | none => am3
    let am5 := match metadata with
      | some md => if md.isEmpty then am4 else { am4 with metadata := dictUpdate am4.metadata md }
      | none => am4
    ⟨aset mgr.artifacts name am5⟩

/-- `ArtifactManager.add_multiple`. -/
def ArtifactManager.add_multiple (mgr : ArtifactManager) (name : String)
    (paths : List String) (metadata : Option (List (String × String))) : ArtifactManager :=
  match alookup mgr.artifacts name with
  | none =>
    ⟨aset mgr.artifacts name ⟨name, paths, none, none, none, metadata.getD []⟩⟩
  | some existing =>
    let am1 := paths.foldl (fun am p => am.add_path p) existing
    let am2 := match metadata with
      | some md => if md.isEmpty then am1 else { am1 with metadata := dictUpdate am1.metadata md }
      | none => am1
    ⟨aset mgr.artifacts name am2⟩

/-- `ArtifactManager.get`: `KeyError` when the name is absent,
`ValueError` when the record exists but has no paths. -/
def ArtifactManager.get (mgr : ArtifactManager) (name : String) : Except ArtifactError String :=
  match alookup mgr.artifacts name with
  | none => .error (.notFound name)
  | some am =>
    match am.primary_path with
    | none => .error (.noPaths name)
    | some p => .ok p

/-- `ArtifactManager.has`. -/
def ArtifactManager.hasArtifact (mgr : ArtifactManager) (name : String) : Bool :=
  (alookup mgr.artifacts name).isSome

/-- `ArtifactManager.remove`. -/
def ArtifactManager.remove (mgr : ArtifactManager) (name : String) :
    Except ArtifactError ArtifactManager :=
  match alookup mgr.artifacts name with
  | none => .error (.notFound name)
  | some _ => .ok ⟨mgr.artifacts.filter (fun p => !(p.1 == name))⟩

/-- The exceptions of `dependencies.py`, carrying the data interpolated
into each message: `DependencyError` for multiple producers,
`CircularDependencyError`, the two `MissingDependencyError` variants
(no producer anywhere / producer exists but not selected), and the
`ValueError` for a module missing from the registry. -/
inductive DependencyError
  | multipleProducers (artifact existing new : String)
  | circularDependency (remaining : List String)
  | missingNoProducer (moduleName artifact : String) (available : List String)
  | missingNotIncluded (moduleName artifact producer : String)
  | moduleNotFound (moduleName : String)
deriving DecidableEq

/-- `DependencyGraph` state: `_registry`, `_graph`, `_producers`. -/
structure DependencyGraph where
  registry : ModuleRegistry
  graph : List (String × List String)
  producers : List (String × String)
deriving DecidableEq

/-- The producer-recording loop of `add_module`: for each artifact in
`produces`, fail if it is already mapped, otherwise map it to this
module. -/
def addProducers (producers : List (String × String)) (moduleName : String) :
    List String → Except DependencyError (List (String × String))
  | [] => .ok producers
  | artifact :: rest =>
    match alookup producers artifact with
    | some existing => .error (.multipleProducers artifact existing moduleName)
    | none => addProducers (producers ++ [(artifact, moduleName)]) moduleName rest

/-- The dependency-set loop of `add_module`: for each required artifact
present in the producer map, insert its producer into the set. -/
def buildDeps (producers : List (String × String)) (requiresList : List String) : List String :=
  requiresList.foldl (fun deps ra =>
    match alookup producers ra with
    | some producer => if producer ∈ deps then deps else deps ++ [producer]
    | none => deps) []

/-- `DependencyGraph.add_module`. -/
def DependencyGraph.add_module (g : DependencyGraph) (moduleName : String) :
    Except DependencyError DependencyGraph :=
  match g.registry.get_metadata moduleName with
  | none => .error (.moduleNotFound moduleName)
  | some metadata =>
    match addProducers g.producers moduleName metadata.produces with
    | .error e => .error e
    | .ok producers =>
      .ok ⟨g.registry, aset g.graph moduleName (buildDeps producers metadata.requires), producers⟩

/-- Phase 1 of `topological_sort` / `validate_dependencies`: add every
selected module not already present in `_graph`. -/
def addModules (g : DependencyGraph) : List String → Except DependencyError DependencyGraph
  | [] => .ok g
  | m :: rest =>
    if (alookup g.graph m).isSome then addModules g rest
    else
      match g.add_module m with
      | .error e => .error e
      | .ok g' => addModules g' rest

/-- The per-module edge recomputation of phase 2 of `topological_sort`:
producers outside the selection contribute no edge. -/
def rebuildDeps (producers : List (String × String)) (modules : List String)
    (requiresList : List String) : List String :=
  requiresList.foldl (fun deps ra =>
    match alookup producers ra with
    | some producer =>
      if producer ∈ modules then (if producer ∈ deps then deps else deps ++ [producer]) else deps
    | none => deps) []

/-- Phase 2 of `topological_sort`: rewrite `_graph[m]` for every
selected module (modules without registry metadata are skipped). -/
def rebuildGraph (r : ModuleRegistry) (producers : List (String × String))
    (modules : List String) (graph0 : List (String × List String)) :
    List (String × List String) :=
  modules.foldl (fun graph m =>
    match r.get_metadata m with
    | none => graph
    | some metadata => aset graph m (rebuildDeps producers modules metadata.requires)) graph0

/-- `self._graph.get(m, set())`. -/
def graphGet (graph : List (String × List String)) (m : String) : List String :=
  (alookup graph m).getD []

/-- Pointwise update of the in-degree dict. -/
def updateFn (deg : String → Int) (k : String) (v : Int) : String → Int :=
  fun x => if x = k then v else deg x

/-- The in-degree computation: `{module: 0 for module in modules}`, then
one increment per dependency of each module that lies in the selection. -/
def initDeg (graph : List (String × List String)) (modules : List String) : String → Int :=
  modules.foldl (fun deg m =>
    (graphGet graph m).foldl (fun d dep =>
      if dep ∈ modules then updateFn d m (d m + 1) else d) deg)
    (fun _ => 0)

/-- Body of the inner `for module in modules:` loop after popping
`current`: decrement the in-degree of every module that depends on
`current`, appending it to the ready queue when the count reaches 0. -/
def decStep (graph : List (String × List String)) (current : String)
    (st : (String → Int) × List String) (m : String) : (String → Int) × List String :=
  if current ∈ graphGet graph m then
    let deg' := updateFn st.1 m (st.1 m - 1)
    if deg' m = 0 then (deg', st.2 ++ [m]) else (deg', st.2)
  else st

/-- The whole inner loop over `modules` for one popped `current`. -/
def processCurrent (graph : List (String × List String)) (modules : List String)
    (current : String) (deg : String → Int) (queue : List String) :
    (String → Int) × List String :=
  modules.foldl (decStep graph current) (deg, queue)

/-- Loop variant of the Kahn `while` loop: queue length plus the sum of
the positive parts of the in-degrees of the selection. -/
def kahnMeasure (modules queue : List String) (deg : String → Int) : Nat :=
  queue.length + (modules.map (fun m => (deg m).toNat)).sum

/-- The `while queue:` loop of `topological_sort`: sort the queue,
pop its head, append it to the result, then run the inner decrement
loop.  `fuel` bounds the number of iterations; `topological_sort`
passes `kahnMeasure + 1`, which is enough for the loop to run to
completion (the measure strictly decreases each iteration). -/
def kahnLoop (graph : List (String × List String)) (modules : List String) :
    Nat → List String → (String → Int) → List String → List String
  | 0, _, _, result => result
  | fuel + 1, queue, deg, result =>
    match sortStrings queue with
    | [] => result
    | current :: rest =>
      let p := processCurrent graph modules current deg rest
      kahnLoop graph modules fuel p.2 p.1 (result ++ [current])

/-- `DependencyGraph.topological_sort`.  Returns the mutated graph state
together with the execution order (the Python method mutates `self` and
returns the list). -/
def DependencyGraph.topological_sort (g : DependencyGraph) (modules : List String) :
    Except DependencyError (DependencyGraph × List String) :=
  match addModules g modules with
  | .error e => .error e
  | .ok g1 =>
    let graph2 := rebuildGraph g1.registry g1.producers modules g1.graph
    let deg := initDeg graph2 modules
    let queue := modules.filter (fun m => deg m == 0)
    let result := kahnLoop graph2 modules (kahnMeasure modules queue deg + 1) queue deg []
    if result.length = modules.length then
      .ok (⟨g1.registry, graph2, g1.producers⟩, result)
    else
      .error (.circularDependency (modules.filter (fun m => !(result.contains m))))

/-- The registry scan of `validate_dependencies`: the first registered
module whose `produces` contains the artifact. -/
def findRegistryProducer (r : ModuleRegistry) (artifact : String) : Option String :=
  r.list_modules.find? (fun other =>
    match r.get_metadata other with
    | some om => artifact ∈ om.produces
    | none => false)

/-- The inner `for required_artifact in metadata.requires:` loop of
`validate_dependencies` for one module, returning the first exception
raised, if any. -/
def checkRequires (g : DependencyGraph) (modules : List String) (moduleName : String) :
    List String → Option DependencyError
  | [] => none
  | ra :: rest =>
    match alookup g.producers ra with
    | none =>
      match findRegistryProducer g.registry ra with
      | some other => some (.missingNotIncluded moduleName ra other)
      | none => some (.missingNoProducer moduleName ra modules)
    | some producer =>
      if producer ∈ modules then checkRequires g modules moduleName rest
      else some (.missingNotIncluded moduleName ra producer)

/-- The outer `for module_name in modules:` loop of
`validate_dependencies` (modules without registry metadata are
skipped). -/
def checkModules (g : DependencyGraph) (modules : List String) :
    List String → Option DependencyError
  | [] => none
  | m :: rest =>
    match g.registry.get_metadata m with
    | none => checkModules g modules rest
    | some metadata =>
      match checkRequires g modules m metadata.requires with
      | some e => some e
      | none => checkModules g modules rest

/-- `DependencyGraph.validate_dependencies`.  Returns the graph state
after the call (the method returns `None`; its observable effects are
the exception and the mutated graph). -/
def DependencyGraph.validate_dependencies (g : DependencyGraph) (modules : List String) :
    Except DependencyError DependencyGraph :=
  match addModules g modules with
  | .error e => .error e
  | .ok g1 =>
    match checkModules g1 modules modules with
    | some e => .error e
    | none => .ok g1

/-- `metadata.produces` of a registered module (empty for unknown
names). -/
def producesOf (r : ModuleRegistry) (m : String) : List String :=
  match r.get_metadata m with
  | some md => md.produces
  | none => []

/-- `metadata.requires` of a registered module (empty for unknown
names). -/
def requiresOf (r : ModuleRegistry) (m : String) : List String :=
  match r.get_metadata m with
  | some md => md.requires
  | none => []

/-- The producer map a fresh graph accumulates over a selection: every
`produces` entry of every selected module, in order. -/
def producersFor (r : ModuleRegistry) (modules : List String) : List (String × String) :=
  (modules.map (fun m => (producesOf r m).map (fun a => (a, m)))).flatten

/-- The dependency edges of a selected module after phase 2 of
`topological_sort` on a fresh graph. -/
def depsFor (r : ModuleRegistry) (modules : List String) (m : String) : List String :=
  rebuildDeps (producersFor r modules) modules (requiresOf r m)

deriving instance DecidableEq for Except

/-- The in-degree a module should have after `result` has been emitted:
the number of its selected dependencies not yet in `result`. -/
def degTarget (graph : List (String × List String)) (ms result : List String) (m : String) : Int :=
  ((((graphGet graph m).filter (fun d => decide (d ∈ ms) && decide (d ∉ result))).length : Nat) : Int)

/-- Every emitted module is preceded by all of its selected
dependencies. -/
def OrderOK (graph : List (String × List String)) (ms result : List String) : Prop :=
  ∀ (i : Nat) (m : String), result[i]? = some m → ∀ d ∈ graphGet graph m, d ∈ ms →
    ∃ j : Nat, j < i ∧ result[j]? = some d

/-- Loop invariant of the Kahn `while` loop. -/
structure KahnInv (graph : List (String × List String)) (ms : List String)
    (queue : List String) (deg : String → Int) (result : List String) : Prop where
  result_nodup : result.Nodup
  result_sub : ∀ x ∈ result, x ∈ ms
  queue_nodup : queue.Nodup
  queue_sub : ∀ x ∈ queue, x ∈ ms
  queue_disj : ∀ x ∈ queue, x ∉ result
  deg_eq : ∀ m ∈ ms, deg m = degTarget graph ms result m
  queue_iff : ∀ m ∈ ms, m ∉ result → (m ∈ queue ↔ deg m = 0)
  order_ok : OrderOK graph ms result

/-- A module class object used by the concrete registries below. -/
def wClass : CommandModuleClass := ⟨"WitnessModule", [], [], none⟩

/-- Registry entry with the given name, requires and produces. -/
def wMeta (n : String) (req prod : List String) : ModuleMetadata :=
  ⟨n, wClass, "build", req, prod, "No description provided", none, true⟩

/-- A two-module pipeline: `configure` produces `configured`, which
`compile` requires. -/
def wRegistry : ModuleRegistry :=
  ⟨[("configure", wMeta "configure" [] ["configured"]),
    ("compile", wMeta "compile" ["configured"] ["built_app"])]⟩

/-- Two modules that require each other's artifact. -/
def cycleRegistry : ModuleRegistry :=
  ⟨[("alpha", wMeta "alpha" ["beta_out"] ["alpha_out"]),
    ("beta", wMeta "beta" ["alpha_out"] ["beta_out"])]⟩

/-- Two modules that both produce the artifact `a`. -/
def dupRegistry : ModuleRegistry :=
  ⟨[("p", wMeta "p" [] ["a"]), ("p2", wMeta "p2" [] ["a"])]⟩

/-- `p` produces `a`; `q` requires `a`. -/
def needRegistry : ModuleRegistry :=
  ⟨[("p", wMeta "p" [] ["a"]), ("q", wMeta "q" ["a"] [])]⟩

/-- A module that requires the artifact it itself produces. -/
def selfLoopRegistry : ModuleRegistry := ⟨[("m", wMeta "m" ["a"] ["a"])]⟩

/-- The graph state `add_module "m"` produces over `selfLoopRegistry`. -/
def selfLoopResult : DependencyGraph :=
  ⟨selfLoopRegistry, [("m", ["m"])], [("a", "m")]⟩

/-- The graph state left behind by a successful `topological_sort ["p"]`
over `dupRegistry`, reused for a second call. -/
def staleGraph : DependencyGraph :=
  match (DependencyGraph.mk dupRegistry [] []).topological_sort ["p"] with
  | .ok (g, _) => g
  | .error _ => DependencyGraph.mk dupRegistry [] []

/-- A second module class, used as the colliding registration. -/
def wClassB : CommandModuleClass := ⟨"OtherModule", [], [], none⟩

/-- A registry holding one module named `m`. -/
def oneRegistry : ModuleRegistry := ⟨[("m", wMeta "m" [] [])]⟩

/-- Artifact manager holding one record named `built` with path `/p`. -/
def oneArtifact : ArtifactManager :=
  (ArtifactManager.mk []).add "built" "/p" none none none none

/-- The manager after adding the same path `/p` under `built` again. -/
def oneArtifactTwice : ArtifactManager :=
  oneArtifact.add "built" "/p" none none none none

theorem alookup_nil {α : Type} (k : String) : alookup ([] : List (String × α)) k = none := rfl

theorem alookup_cons {α : Type} (k' : String) (v' : α) (rest : List (String × α)) (k : String) :
    alookup ((k', v') :: rest) k = if k' = k then some v' else alookup rest k := by
  by_cases h : k' = k
  · have hb : (k' == k) = true := beq_iff_eq.mpr h
    simp [alookup, List.find?, hb, h]
  · have hb : (k' == k) = false := beq_eq_false_iff_ne.mpr h
    simp [alookup, List.find?, hb, h]

theorem alookup_append {α : Type} (l₁ l₂ : List (String × α)) (k : String) :
    alookup (l₁ ++ l₂) k = (alookup l₁ k).or (alookup l₂ k) := by
  simp [alookup, List.find?_append]
  cases List.find? (fun p => p.1 == k) l₁ <;> simp

theorem alookup_aset_self {α : Type} (l : List (String × α)) (k : String) (v : α) :
    alookup (aset l k v) k = some v := by
  induction l with
  | nil => simp [aset, alookup_cons]
  | cons p rest ih =>
    obtain ⟨k', v'⟩ := p
    by_cases h : k' = k
    · simp [aset, h, alookup_cons]
    · simp [aset, h, alookup_cons, ih]

theorem alookup_aset_ne {α : Type} (l : List (String × α)) (k k₀ : String) (v : α)
    (h : k₀ ≠ k) : alookup (aset l k v) k₀ = alookup l k₀ := by
  have h' : ¬ k = k₀ := fun hh => h hh.symm
  induction l with
  | nil => simp [aset, alookup_cons, alookup_nil, h']
  | cons p rest ih =>
    obtain ⟨k', v'⟩ := p
    by_cases hk : k' = k
    · subst hk
      simp [aset, alookup_cons, h']
    · simp [aset, hk, alookup_cons, ih]

theorem aset_keys_of_mem {α : Type} (l : List (String × α)) (k : String) (v : α)
    (h : (alookup l k).isSome) : (aset l k v).map Prod.fst = l.map Prod.fst := by
  induction l with
  | nil => simp [alookup_nil] at h
  | cons p rest ih =>
    obtain ⟨k', v'⟩ := p
    by_cases hk : k' = k
    · simp [aset, hk]
    · rw [alookup_cons] at h
      simp only [hk, if_false] at h
      simp [aset, hk, ih h]

theorem aset_keys_of_none {α : Type} (l : List (String × α)) (k : String) (v : α)
    (h : alookup l k = none) : (aset l k v).map Prod.fst = l.map Prod.fst ++ [k] := by
  induction l with
  | nil => simp [aset]
  | cons p rest ih =>
    obtain ⟨k', v'⟩ := p
    rw [alookup_cons] at h
    by_cases hk : k' = k
    · simp [hk] at h
    · simp only [hk, if_false] at h
      simp [aset, hk, ih h]

theorem aset_eq_self {α : Type} (l : List (String × α)) (k : String) (v : α)
    (h : alookup l k = some v) : aset l k v = l := by
  induction l with
  | nil => simp [alookup_nil] at h
  | cons p rest ih =>
    obtain ⟨k', v'⟩ := p
    rw [alookup_cons] at h
    by_cases hk : k' = k
    · simp only [hk, if_true] at h
      cases h
      simp [aset, hk]
    · simp only [hk, if_false] at h
      simp [aset, hk, ih h]

theorem charsLe_total (a b : List Char) : charsLe a b = true ∨ charsLe b a = true := by
  induction a generalizing b with
  | nil => left; rfl
  | cons c cs ih =>
    cases b with
    | nil => right; rfl
    | cons d ds =>
      by_cases h1 : c.toNat < d.toNat
      · left; simp [charsLe, h1]
      · by_cases h2 : d.toNat < c.toNat
        · right; simp [charsLe, h2]
        · rcases ih ds with h | h
          · left; simp [charsLe, h1, h2, h]
          · right; simp [charsLe, h1, h2, h]

theorem charsLe_trans (a b c : List Char) (hab : charsLe a b = true)
    (hbc : charsLe b c = true) : charsLe a c = true := by
  induction a generalizing b c with
  | nil => rfl
  | cons x xs ih =>
    cases b with
    | nil => simp [charsLe] at hab
    | cons y ys =>
      cases c with
      | nil => simp [charsLe] at hbc
      | cons z zs =>
        simp only [charsLe] at hab hbc ⊢
        by_cases hxy : x.toNat < y.toNat
        · by_cases hyz : y.toNat < z.toNat
          · simp [Nat.lt_trans hxy hyz]
          · by_cases hzy : z.toNat < y.toNat
            · simp [charsLe, hyz, hzy] at hbc
            · have : y.toNat = z.toNat := Nat.le_antisymm (Nat.le_of_not_lt hzy) (Nat.le_of_not_lt hyz)
              simp [this ▸ hxy]
        · by_cases hyx : y.toNat < x.toNat
          · simp [hxy, hyx] at hab
          · have hxyeq : x.toNat = y.toNat := Nat.le_antisymm (Nat.le_of_not_lt hyx) (Nat.le_of_not_lt hxy)
            by_cases hyz : y.toNat < z.toNat
            · simp [hxyeq ▸ hyz]
            · by_cases hzy : z.toNat < y.toNat
              · simp [charsLe, hyz, hzy] at hbc
              · simp only [hxy, hyx, if_false] at hab
                simp only [hyz, hzy, if_false] at hbc
                have h1 : ¬ x.toNat < z.toNat := hxyeq ▸ hyz
                have h2 : ¬ z.toNat < x.toNat := hxyeq ▸ hzy
                simp [h1, h2, ih ys zs hab hbc]

theorem strLe_total (a b : String) : strLe a b = true ∨ strLe b a = true :=
  charsLe_total a.data b.data

theorem strLe_trans (a b c : String) (hab : strLe a b = true) (hbc : strLe b c = true) :
    strLe a c = true :=
  charsLe_trans a.data b.data c.data hab hbc

theorem insertSorted_perm (a : String) (l : List String) :
    List.Perm (insertSorted a l) (a :: l) := by
  induction l with
  | nil => exact List.Perm.refl _
  | cons b rest ih =>
    by_cases h : strLe a b = true
    · simp [insertSorted, h]
    · simp only [insertSorted, h, if_false]
      exact List.Perm.trans (List.Perm.cons b ih) (List.Perm.swap a b rest)

theorem sortStrings_perm (l : List String) : List.Perm (sortStrings l) l := by
  induction l with
  | nil => exact List.Perm.refl _
  | cons a rest ih =>
    exact List.Perm.trans (insertSorted_perm a (sortStrings rest)) (List.Perm.cons a ih)

theorem insertSorted_sorted (a : String) (l : List String) (h : SortedLe l) :
    SortedLe (insertSorted a l) := by
  induction l with
  | nil => exact ⟨by simp, trivial⟩
  | cons b rest ih =>
    obtain ⟨hb, hrest⟩ := h
    by_cases hab : strLe a b = true
    · simp only [insertSorted, hab, if_true]
      refine ⟨?_, hb, hrest⟩
      intro x hx
      rcases List.mem_cons.mp hx with rfl | hx
      · exact hab
      · exact strLe_trans a b x hab (hb x hx)
    · simp only [insertSorted, hab, if_false]
      refine ⟨?_, ih hrest⟩
      intro x hx
      have hx' := (insertSorted_perm a rest).mem_iff.mp hx
      rcases List.mem_cons.mp hx' with rfl | hx''
      · rcases strLe_total x b with h | h
        · exact absurd h hab
        · exact h
      · exact hb x hx''

theorem sortStrings_sorted (l : List String) : SortedLe (sortStrings l) := by
  induction l with
  | nil => trivial
  | cons a rest ih => exact insertSorted_sorted a (sortStrings rest) ih

theorem sortStrings_head_min (l : List String) (c : String) (rest : List String)
    (h : sortStrings l = c :: rest) : ∀ x ∈ l, strLe c x = true := by
  intro x hx
  have hmem : x ∈ sortStrings l := (sortStrings_perm l).mem_iff.mpr hx
  rw [h] at hmem
  have hs := sortStrings_sorted l
  rw [h] at hs
  rcases List.mem_cons.mp hmem with rfl | hx'
  · rcases strLe_total x x with h | h <;> exact h
  · exact hs.1 x hx'

theorem alookup_append_none {α : Type} (l₁ l₂ : List (String × α)) (k : String) :
    alookup (l₁ ++ l₂) k = none ↔ (alookup l₁ k = none ∧ alookup l₂ k = none) := by
  rw [alookup_append]
  cases alookup l₁ k <;> simp

theorem alookup_append_left {α : Type} (l₁ l₂ : List (String × α)) (k : String) (v : α)
    (h : alookup l₁ k = some v) : alookup (l₁ ++ l₂) k = some v := by
  rw [alookup_append, h]; rfl

theorem alookup_append_right {α : Type} (l₁ l₂ : List (String × α)) (k : String)
    (h : alookup l₁ k = none) : alookup (l₁ ++ l₂) k = alookup l₂ k := by
  rw [alookup_append, h]; rfl

theorem alookup_pairs_mem (arts : List String) (m : String) (x : String) (hx : x ∈ arts) :
    alookup (arts.map (fun a => (a, m))) x = some m := by
  induction arts with
  | nil => cases hx
  | cons a rest ih =>
    rcases List.mem_cons.mp hx with rfl | hx'
    · simp [alookup_cons]
    · by_cases hax : a = x
      · simp [alookup_cons, hax]
      · simp [alookup_cons, hax, ih hx']

theorem alookup_pairs_not_mem (arts : List String) (m : String) (x : String) (hx : x ∉ arts) :
    alookup (arts.map (fun a => (a, m))) x = none := by
  induction arts with
  | nil => rfl
  | cons a rest ih =>
    have hax : a ≠ x := fun h => hx (h ▸ List.mem_cons_self a rest)
    have hx' : x ∉ rest := fun h => hx (List.mem_cons_of_mem a h)
    simp [alookup_cons, hax, ih hx']

theorem producersFor_cons (r : ModuleRegistry) (m : String) (rest : List String) :
    producersFor r (m :: rest) =
      (producesOf r m).map (fun a => (a, m)) ++ producersFor r rest := by
  simp [producersFor]

theorem producersFor_lookup_some (r : ModuleRegistry) (ms : List String) (a p : String)
    (h : alookup (producersFor r ms) a = some p) : p ∈ ms ∧ a ∈ producesOf r p := by
  induction ms with
  | nil => simp [producersFor, alookup_nil] at h
  | cons m rest ih =>
    rw [producersFor_cons, alookup_append] at h
    by_cases hmem : a ∈ producesOf r m
    · rw [alookup_pairs_mem _ _ _ hmem] at h
      simp only [Option.or_some] at h
      cases h
      exact ⟨List.mem_cons_self _ _, hmem⟩
    · rw [alookup_pairs_not_mem _ _ _ hmem] at h
      simp only [Option.none_or] at h
      obtain ⟨hp, ha⟩ := ih h
      exact ⟨List.mem_cons_of_mem _ hp, ha⟩

theorem producersFor_lookup_none_iff (r : ModuleRegistry) (ms : List String) (a : String) :
    alookup (producersFor r ms) a = none ↔ ∀ p ∈ ms, a ∉ producesOf r p := by
  induction ms with
  | nil => simp [producersFor, alookup_nil]
  | cons m rest ih =>
    rw [producersFor_cons, alookup_append_none]
    constructor
    · rintro ⟨h1, h2⟩ p hp
      rcases List.mem_cons.mp hp with rfl | hp'
      · intro hmem
        rw [alookup_pairs_mem _ _ _ hmem] at h1
        cases h1
      · exact (ih.mp h2) p hp'
    · intro h
      refine ⟨?_, ih.mpr (fun p hp => h p (List.mem_cons_of_mem _ hp))⟩
      exact alookup_pairs_not_mem _ _ _ (h m (List.mem_cons_self _ _))

theorem addProducers_ok_of (producers : List (String × String)) (m : String)
    (arts : List String) (hfresh : ∀ a ∈ arts, alookup producers a = none)
    (hnd : arts.Nodup) :
    addProducers producers m arts = .ok (producers ++ arts.map (fun a => (a, m))) := by
  induction arts generalizing producers with
  | nil => simp [addProducers]
  | cons a rest ih =>
    have ha : alookup producers a = none := hfresh a (List.mem_cons_self _ _)
    rw [addProducers, ha]
    have hrest : ∀ b ∈ rest, alookup (producers ++ [(a, m)]) b = none := by
      intro b hb
      rw [alookup_append_none]
      refine ⟨hfresh b (List.mem_cons_of_mem _ hb), ?_⟩
      have hab : a ≠ b := fun h => (List.nodup_cons.mp hnd).1 (h ▸ hb)
      simp [alookup_cons, hab, alookup_nil]
    rw [ih (producers ++ [(a, m)]) hrest (List.nodup_cons.mp hnd).2]
    simp

theorem addProducers_ok_inv (producers : List (String × String)) (m : String)
    (arts : List String) (out : List (String × String))
    (h : addProducers producers m arts = .ok out) :
    out = producers ++ arts.map (fun a => (a, m)) ∧
      (∀ a ∈ arts, alookup producers a = none) ∧ arts.Nodup := by
  induction arts generalizing producers with
  | nil =>
    simp [addProducers] at h
    simp [h.symm]
  | cons a rest ih =>
    rw [addProducers] at h
    cases hla : alookup producers a with
    | some p => rw [hla] at h; cases h
    | none =>
      rw [hla] at h
      obtain ⟨hout, hfresh, hnd⟩ := ih (producers ++ [(a, m)]) h
      have hamem : a ∉ rest := by
        intro hmem
        have := hfresh a hmem
        rw [alookup_append_none] at this
        simp [alookup_cons] at this
      refine ⟨by simpa using hout, ?_, List.nodup_cons.mpr ⟨hamem, hnd⟩⟩
      intro b hb
      rcases List.mem_cons.mp hb with rfl | hb'
      · exact hla
      · exact (alookup_append_none _ _ _).mp (hfresh b hb') |>.1

theorem addProducers_error_kind (producers : List (String × String)) (m : String)
    (arts : List String) (e : DependencyError)
    (h : addProducers producers m arts = .error e) :
    ∃ x p, e = .multipleProducers x p m := by
  induction arts generalizing producers with
  | nil => simp [addProducers] at h
  | cons a rest ih =>
    rw [addProducers] at h
    cases hla : alookup producers a with
    | some p =>
      rw [hla] at h
      cases h
      exact ⟨a, p, rfl⟩
    | none =>
      rw [hla] at h
      exact ih _ h

theorem add_module_ok_of (g : DependencyGraph) (mn : String) (md : ModuleMetadata)
    (hmeta : g.registry.get_metadata mn = some md)
    (hfresh : ∀ a ∈ md.produces, alookup g.producers a = none)
    (hnd : md.produces.Nodup) :
    g.add_module mn = .ok ⟨g.registry,
      aset g.graph mn (buildDeps (g.producers ++ md.produces.map (fun a => (a, mn))) md.requires),
      g.producers ++ md.produces.map (fun a => (a, mn))⟩ := by
  rw [DependencyGraph.add_module, hmeta]
  dsimp only
  rw [addProducers_ok_of g.producers mn md.produces hfresh hnd]

theorem add_module_ok_inv (g : DependencyGraph) (mn : String) (g' : DependencyGraph)
    (h : g.add_module mn = .ok g') :
    ∃ md, g.registry.get_metadata mn = some md ∧
      g'.registry = g.registry ∧
      g'.producers = g.producers ++ md.produces.map (fun a => (a, mn)) ∧
      (∀ a ∈ md.produces, alookup g.producers a = none) ∧ md.produces.Nodup ∧
      g'.graph = aset g.graph mn (buildDeps g'.producers md.requires) := by
  rw [DependencyGraph.add_module] at h
  cases hmeta : g.registry.get_metadata mn with
  | none => rw [hmeta] at h; cases h
  | some md =>
    rw [hmeta] at h
    dsimp only at h
    cases hap : addProducers g.producers mn md.produces with
    | error e => rw [hap] at h; cases h
    | ok producers =>
      rw [hap] at h
      dsimp only at h
      cases h
      obtain ⟨hout, hfresh, hnd⟩ := addProducers_ok_inv _ _ _ _ hap
      exact ⟨md, rfl, rfl, hout ▸ rfl, hfresh, hnd, by rw [hout]⟩

theorem add_module_error_kind (g : DependencyGraph) (mn : String) (e : DependencyError)
    (hmeta : (g.registry.get_metadata mn).isSome) (h : g.add_module mn = .error e) :
    ∃ x p q, e = .multipleProducers x p q := by
  rw [DependencyGraph.add_module] at h
  cases hm : g.registry.get_metadata mn with
  | none => rw [hm] at hmeta; cases hmeta
  | some md =>
    rw [hm] at h
    dsimp only at h
    cases hap : addProducers g.producers mn md.produces with
    | error e' =>
      rw [hap] at h
      cases h
      obtain ⟨x, p, hxp⟩ := addProducers_error_kind _ _ _ _ hap
      exact ⟨x, p, mn, hxp⟩
    | ok producers => rw [hap] at h; cases h

theorem addModules_registry (g : DependencyGraph) (ms : List String) (g' : DependencyGraph)
    (h : addModules g ms = .ok g') : g'.registry = g.registry := by
  induction ms generalizing g with
  | nil => cases h; rfl
  | cons m rest ih =>
    rw [addModules] at h
    by_cases hg : (alookup g.graph m).isSome
    · rw [if_pos hg] at h
      exact ih g h
    · rw [if_neg hg] at h
      cases ha : g.add_module m with
      | error e => rw [ha] at h; cases h
      | ok g1 =>
        rw [ha] at h
        obtain ⟨md, _, hreg, _⟩ := add_module_ok_inv _ _ _ ha
        rw [ih g1 h, hreg]

theorem addModules_ok_of (g : DependencyGraph) (ms : List String)
    (hreg : ∀ m ∈ ms, (g.registry.get_metadata m).isSome)
    (hfresh : ∀ m ∈ ms, alookup g.graph m = none)
    (hnd : ms.Nodup)
    (hpf : ∀ m ∈ ms, ∀ a ∈ producesOf g.registry m, alookup g.producers a = none)
    (hjoin : ((ms.map (fun m => producesOf g.registry m)).flatten).Nodup) :
    ∃ g', addModules g ms = .ok g' ∧ g'.registry = g.registry ∧
      g'.producers = g.producers ++
        (ms.map (fun m => (producesOf g.registry m).map (fun a => (a, m)))).flatten ∧
      (∀ m ∈ ms, (alookup g'.graph m).isSome) ∧
      (∀ m, (alookup g.graph m).isSome → (alookup g'.graph m).isSome) := by
  induction ms generalizing g with
  | nil => exact ⟨g, rfl, rfl, by simp, by simp, fun m hm => hm⟩
  | cons m rest ih =>
    obtain ⟨md, hmd⟩ := Option.isSome_iff_exists.mp (hreg m (List.mem_cons_self _ _))
    have hmdprod : producesOf g.registry m = md.produces := by
      rw [producesOf, hmd]
    have hjoin' := hjoin
    rw [List.map_cons, List.flatten_cons, List.nodup_append] at hjoin'
    obtain ⟨hnd1, hnd2, hdisj⟩ := hjoin'
    have hok := add_module_ok_of g m md hmd
      (by rw [← hmdprod]; exact hpf m (List.mem_cons_self _ _)) (hmdprod ▸ hnd1)
    rw [addModules]
    have hgm : ¬ (alookup g.graph m).isSome := by
      rw [hfresh m (List.mem_cons_self _ _)]
      simp
    rw [if_neg hgm, hok]
    set g1 : DependencyGraph := ⟨g.registry,
      aset g.graph m (buildDeps (g.producers ++ md.produces.map (fun a => (a, m))) md.requires),
      g.producers ++ md.produces.map (fun a => (a, m))⟩ with hg1
    have hrest := ih g1
      (fun x hx => hreg x (List.mem_cons_of_mem _ hx))
      (by
        intro x hx
        have hxm : x ≠ m := by
          rintro rfl
          exact (List.nodup_cons.mp hnd).1 hx
        show alookup (aset g.graph m _) x = none
        rw [alookup_aset_ne _ _ _ _ hxm]
        exact hfresh x (List.mem_cons_of_mem _ hx))
      (List.nodup_cons.mp hnd).2
      (by
        intro x hx a ha
        show alookup (g.producers ++ md.produces.map (fun b => (b, m))) a = none
        rw [alookup_append_none]
        refine ⟨hpf x (List.mem_cons_of_mem _ hx) a ha, ?_⟩
        apply alookup_pairs_not_mem
        intro hmem
        exact hdisj (hmdprod ▸ hmem) (List.mem_flatten.mpr ⟨producesOf g.registry x,
          List.mem_map.mpr ⟨x, hx, rfl⟩, ha⟩))
      hnd2
    obtain ⟨g', hrun, hreg', hprod', hkeys', hpres'⟩ := hrest
    refine ⟨g', hrun, by rw [hreg'], ?_, ?_, ?_⟩
    · rw [hprod']
      show g.producers ++ md.produces.map (fun a => (a, m)) ++ _ = _
      rw [List.map_cons, List.flatten_cons, hmdprod, List.append_assoc]
    · intro x hx
      rcases List.mem_cons.mp hx with rfl | hx'
      · apply hpres'
        show (alookup (aset g.graph x _) x).isSome
        rw [alookup_aset_self]
        rfl
      · exact hkeys' x hx'
    · intro x hx
      apply hpres'
      show (alookup (aset g.graph m _) x).isSome
      by_cases hxm : x = m
      · subst hxm; rw [alookup_aset_self]; rfl
      · rw [alookup_aset_ne _ _ _ _ hxm]; exact hx

theorem addModules_error_kind (g : DependencyGraph) (ms : List String) (e : DependencyError)
    (hreg : ∀ m ∈ ms, (g.registry.get_metadata m).isSome)
    (h : addModules g ms = .error e) : ∃ x p q, e = .multipleProducers x p q := by
  induction ms generalizing g with
  | nil => cases h
  | cons m rest ih =>
    rw [addModules] at h
    by_cases hg : (alookup g.graph m).isSome
    · rw [if_pos hg] at h
      exact ih g (fun x hx => hreg x (List.mem_cons_of_mem _ hx)) h
    · rw [if_neg hg] at h
      cases ha : g.add_module m with
      | error e' =>
        rw [ha] at h
        cases h
        exact add_module_error_kind g m e (hreg m (List.mem_cons_self _ _)) ha
      | ok g1 =>
        rw [ha] at h
        obtain ⟨md, _, hreg1, _⟩ := add_module_ok_inv _ _ _ ha
        exact ih g1 (fun x hx => by rw [hreg1]; exact hreg x (List.mem_cons_of_mem _ hx)) h

theorem addModules_producers_ext (g : DependencyGraph) (ms : List String) (g' : DependencyGraph)
    (h : addModules g ms = .ok g') : ∃ ext, g'.producers = g.producers ++ ext := by
  induction ms generalizing g with
  | nil => cases h; exact ⟨[], by simp⟩
  | cons m rest ih =>
    rw [addModules] at h
    by_cases hg : (alookup g.graph m).isSome
    · rw [if_pos hg] at h
      exact ih g h
    · rw [if_neg hg] at h
      cases ha : g.add_module m with
      | error e => rw [ha] at h; cases h
      | ok g1 =>
        rw [ha] at h
        obtain ⟨md, _, _, hprod, _⟩ := add_module_ok_inv _ _ _ ha
        obtain ⟨ext, hext⟩ := ih g1 h
        exact ⟨md.produces.map (fun a => (a, m)) ++ ext, by rw [hext, hprod, List.append_assoc]⟩

theorem addModules_ok_producer_eq (g : DependencyGraph) (ms : List String) (g' : DependencyGraph)
    (h : addModules g ms = .ok g') :
    ∀ m ∈ ms, alookup g.graph m = none →
      ∀ a ∈ producesOf g.registry m, alookup g'.producers a = some m := by
  induction ms generalizing g with
  | nil => intro m hm; cases hm
  | cons x rest ih =>
    rw [addModules] at h
    intro m hm hgm a ha
    by_cases hg : (alookup g.graph x).isSome
    · rw [if_pos hg] at h
      rcases List.mem_cons.mp hm with rfl | hm'
      · rw [hgm] at hg; cases hg
      · exact ih g h m hm' hgm a ha
    · rw [if_neg hg] at h
      cases hadd : g.add_module x with
      | error e => rw [hadd] at h; cases h
      | ok g1 =>
        rw [hadd] at h
        obtain ⟨md, hmd, hreg1, hprod1, hfresh1, hnd1, hgraph1⟩ := add_module_ok_inv _ _ _ hadd
        by_cases hmx : m = x
        · subst hmx
          have hamd : a ∈ md.produces := by
            rw [producesOf, hmd] at ha
            exact ha
          have h1 : alookup g1.producers a = some m := by
            rw [hprod1, alookup_append_right _ _ _ (hfresh1 a hamd)]
            exact alookup_pairs_mem _ _ _ hamd
          obtain ⟨ext, hext⟩ := addModules_producers_ext g1 rest g' h
          rw [hext]
          exact alookup_append_left _ _ _ _ h1
        · rcases List.mem_cons.mp hm with rfl | hm'
          · exact absurd rfl hmx
          · apply ih g1 h m hm'
            · rw [hgraph1, alookup_aset_ne _ _ _ _ hmx]
              exact hgm
            · rw [hreg1]
              exact ha

theorem buildDeps_go_mem (ps : List (String × String)) (rl : List String)
    (acc : List String) (x : String) :
    (x ∈ rl.foldl (fun deps ra =>
        match alookup ps ra with
        | some producer => if producer ∈ deps then deps else deps ++ [producer]
        | none => deps) acc) ↔
      x ∈ acc ∨ ∃ a ∈ rl, alookup ps a = some x := by
  induction rl generalizing acc with
  | nil => simp
  | cons ra rest ih =>
    rw [List.foldl_cons]
    cases hra : alookup ps ra with
    | none =>
      rw [ih]
      constructor
      · rintro (hx | ⟨a, ha, hax⟩)
        · exact Or.inl hx
        · exact Or.inr ⟨a, List.mem_cons_of_mem _ ha, hax⟩
      · rintro (hx | ⟨a, ha, hax⟩)
        · exact Or.inl hx
        · rcases List.mem_cons.mp ha with rfl | ha'
          · rw [hra] at hax; cases hax
          · exact Or.inr ⟨a, ha', hax⟩
    | some producer =>
      dsimp only
      by_cases hp : producer ∈ acc
      · rw [if_pos hp, ih]
        constructor
        · rintro (hx | ⟨a, ha, hax⟩)
          · exact Or.inl hx
          · exact Or.inr ⟨a, List.mem_cons_of_mem _ ha, hax⟩
        · rintro (hx | ⟨a, ha, hax⟩)
          · exact Or.inl hx
          · rcases List.mem_cons.mp ha with rfl | ha'
            · rw [hra] at hax
              cases hax
              exact Or.inl hp
            · exact Or.inr ⟨a, ha', hax⟩
      · rw [if_neg hp, ih]
        constructor
        · rintro (hx | ⟨a, ha, hax⟩)
          · rcases List.mem_append.mp hx with hx' | hx'
            · exact Or.inl hx'
            · rw [List.mem_singleton] at hx'
              subst hx'
              exact Or.inr ⟨ra, List.mem_cons_self _ _, hra⟩
          · exact Or.inr ⟨a, List.mem_cons_of_mem _ ha, hax⟩
        · rintro (hx | ⟨a, ha, hax⟩)
          · exact Or.inl (List.mem_append.mpr (Or.inl hx))
          · rcases List.mem_cons.mp ha with rfl | ha'
            · rw [hra] at hax
              cases hax
              exact Or.inl (List.mem_append.mpr (Or.inr (List.mem_singleton.mpr rfl)))
            · exact Or.inr ⟨a, ha', hax⟩

theorem buildDeps_mem (ps : List (String × String)) (rl : List String) (x : String) :
    x ∈ buildDeps ps rl ↔ ∃ a ∈ rl, alookup ps a = some x := by
  rw [buildDeps, buildDeps_go_mem]
  simp

theorem rebuildDeps_go_mem (ps : List (String × String)) (ms : List String) (rl : List String)
    (acc : List String) (x : String) :
    (x ∈ rl.foldl (fun deps ra =>
        match alookup ps ra with
        | some producer =>
          if producer ∈ ms then (if producer ∈ deps then deps else deps ++ [producer]) else deps
        | none => deps) acc) ↔
      x ∈ acc ∨ ∃ a ∈ rl, alookup ps a = some x ∧ x ∈ ms := by
  induction rl generalizing acc with
  | nil => simp
  | cons ra rest ih =>
    rw [List.foldl_cons]
    cases hra : alookup ps ra with
    | none =>
      rw [ih]
      constructor
      · rintro (hx | ⟨a, ha, hax, hxm⟩)
        · exact Or.inl hx
        · exact Or.inr ⟨a, List.mem_cons_of_mem _ ha, hax, hxm⟩
      · rintro (hx | ⟨a, ha, hax, hxm⟩)
        · exact Or.inl hx
        · rcases List.mem_cons.mp ha with rfl | ha'
          · rw [hra] at hax; cases hax
          · exact Or.inr ⟨a, ha', hax, hxm⟩
    | some producer =>
      dsimp only
      by_cases hpm : producer ∈ ms
      · rw [if_pos hpm]
        by_cases hp : producer ∈ acc
        · rw [if_pos hp, ih]
          constructor
          · rintro (hx | ⟨a, ha, hax, hxm⟩)
            · exact Or.inl hx
            · exact Or.inr ⟨a, List.mem_cons_of_mem _ ha, hax, hxm⟩
          · rintro (hx | ⟨a, ha, hax, hxm⟩)
            · exact Or.inl hx
            · rcases List.mem_cons.mp ha with rfl | ha'
              · rw [hra] at hax
                cases hax
                exact Or.inl hp
              · exact Or.inr ⟨a, ha', hax, hxm⟩
        · rw [if_neg hp, ih]
          constructor
          · rintro (hx | ⟨a, ha, hax, hxm⟩)
            · rcases List.mem_append.mp hx with hx' | hx'
              · exact Or.inl hx'
              · rw [List.mem_singleton] at hx'
                subst hx'
                exact Or.inr ⟨ra, List.mem_cons_self _ _, hra, hpm⟩
            · exact Or.inr ⟨a, List.mem_cons_of_mem _ ha, hax, hxm⟩
          · rintro (hx | ⟨a, ha, hax, hxm⟩)
            · exact Or.inl (List.mem_append.mpr (Or.inl hx))
            · rcases List.mem_cons.mp ha with rfl | ha'
              · rw [hra] at hax
                cases hax
                exact Or.inl (List.mem_append.mpr (Or.inr (List.mem_singleton.mpr rfl)))
              · exact Or.inr ⟨a, ha', hax, hxm⟩
      · rw [if_neg hpm, ih]
        constructor
        · rintro (hx | ⟨a, ha, hax, hxm⟩)
          · exact Or.inl hx
          · exact Or.inr ⟨a, List.mem_cons_of_mem _ ha, hax, hxm⟩
        · rintro (hx | ⟨a, ha, hax, hxm⟩)
          · exact Or.inl hx
          · rcases List.mem_cons.mp ha with rfl | ha'
            · rw [hra] at hax
              cases hax
              exact absurd hxm hpm
            · exact Or.inr ⟨a, ha', hax, hxm⟩

theorem rebuildDeps_mem (ps : List (String × String)) (ms : List String) (rl : List String)
    (x : String) :
    x ∈ rebuildDeps ps ms rl ↔ ∃ a ∈ rl, alookup ps a = some x ∧ x ∈ ms := by
  rw [rebuildDeps, rebuildDeps_go_mem]
  simp

theorem rebuildDeps_go_nodup (ps : List (String × String)) (ms : List String) (rl : List String)
    (acc : List String) (hacc : acc.Nodup) :
    (rl.foldl (fun deps ra =>
        match alookup ps ra with
        | some producer =>
          if producer ∈ ms then (if producer ∈ deps then deps else deps ++ [producer]) else deps
        | none => deps) acc).Nodup := by
  induction rl generalizing acc with
  | nil => exact hacc
  | cons ra rest ih =>
    rw [List.foldl_cons]
    cases hra : alookup ps ra with
    | none => exact ih acc hacc
    | some producer =>
      dsimp only
      by_cases hpm : producer ∈ ms
      · rw [if_pos hpm]
        by_cases hp : producer ∈ acc
        · rw [if_pos hp]
          exact ih acc hacc
        · rw [if_neg hp]
          refine ih _ ?_
          rw [List.nodup_append]
          exact ⟨hacc, List.nodup_singleton _, by simpa using fun h => hp h⟩
      · rw [if_neg hpm]
        exact ih acc hacc

theorem rebuildDeps_nodup (ps : List (String × String)) (ms : List String) (rl : List String) :
    (rebuildDeps ps ms rl).Nodup :=
  rebuildDeps_go_nodup ps ms rl [] List.nodup_nil

theorem rebuildDeps_sub (ps : List (String × String)) (ms : List String) (rl : List String) :
    ∀ x ∈ rebuildDeps ps ms rl, x ∈ ms := by
  intro x hx
  exact ((rebuildDeps_mem ps ms rl x).mp hx).choose_spec.2.2

theorem rebuildGraph_go_lookup_not_mem (r : ModuleRegistry) (ps : List (String × String))
    (ms0 : List String) (ms : List String) (graph0 : List (String × List String))
    (m : String) : m ∉ ms →
    alookup (ms.foldl (fun graph x =>
        match r.get_metadata x with
        | none => graph
        | some metadata => aset graph x (rebuildDeps ps ms0 metadata.requires)) graph0) m =
      alookup graph0 m := by
  induction ms generalizing graph0 with
  | nil => intro _; rfl
  | cons x rest ih =>
    intro hm
    have hmx : m ≠ x := fun h => hm (h ▸ List.mem_cons_self _ _)
    have hm' : m ∉ rest := fun h => hm (List.mem_cons_of_mem _ h)
    rw [List.foldl_cons]
    cases hx : r.get_metadata x with
    | none => exact ih graph0 hm'
    | some md2 =>
      dsimp only
      rw [ih _ hm']
      exact alookup_aset_ne _ _ _ _ hmx

theorem rebuildGraph_go_lookup_mem (r : ModuleRegistry) (ps : List (String × String))
    (ms0 : List String) (ms : List String) (graph0 : List (String × List String))
    (m : String) (md : ModuleMetadata) : m ∈ ms → r.get_metadata m = some md →
    alookup (ms.foldl (fun graph x =>
        match r.get_metadata x with
        | none => graph
        | some metadata => aset graph x (rebuildDeps ps ms0 metadata.requires)) graph0) m =
      some (rebuildDeps ps ms0 md.requires) := by
  induction ms generalizing graph0 with
  | nil => intro hm _; cases hm
  | cons x rest ih =>
    intro hm hmd
    rw [List.foldl_cons]
    by_cases hmx : m = x
    · subst hmx
      rw [hmd]
      dsimp only
      by_cases hmr : m ∈ rest
      · exact ih _ hmr hmd
      · rw [rebuildGraph_go_lookup_not_mem r ps ms0 rest _ m hmr, alookup_aset_self]
    · rcases List.mem_cons.mp hm with h | hmr
      · exact absurd h hmx
      · cases hx : r.get_metadata x with
        | none => exact ih graph0 hmr hmd
        | some md2 =>
          dsimp only
          exact ih _ hmr hmd

theorem rebuildGraph_lookup_not_mem (r : ModuleRegistry) (ps : List (String × String))
    (ms : List String) (graph0 : List (String × List String)) (m : String) (hm : m ∉ ms) :
    alookup (rebuildGraph r ps ms graph0) m = alookup graph0 m :=
  rebuildGraph_go_lookup_not_mem r ps ms ms graph0 m hm

theorem rebuildGraph_lookup_mem (r : ModuleRegistry) (ps : List (String × String))
    (ms : List String) (graph0 : List (String × List String)) (m : String)
    (md : ModuleMetadata) (hm : m ∈ ms) (hmd : r.get_metadata m = some md) :
    alookup (rebuildGraph r ps ms graph0) m = some (rebuildDeps ps ms md.requires) :=
  rebuildGraph_go_lookup_mem r ps ms ms graph0 m md hm hmd

theorem innerDeg_at (ms l : List String) (m : String) (deg : String → Int) :
    (l.foldl (fun d dep => if dep ∈ ms then updateFn d m (d m + 1) else d) deg) m =
      deg m + ((l.filter (fun d => decide (d ∈ ms))).length : Int) := by
  induction l generalizing deg with
  | nil => simp
  | cons dep rest ih =>
    rw [List.foldl_cons]
    by_cases hd : dep ∈ ms
    · rw [if_pos hd, ih]
      have hu : updateFn deg m (deg m + 1) m = deg m + 1 := by simp [updateFn]
      rw [hu, List.filter_cons, if_pos (by simpa using hd)]
      simp only [List.length_cons]
      push_cast
      ring
    · rw [if_neg hd, ih, List.filter_cons, if_neg (by simpa using hd)]

theorem innerDeg_ne (ms l : List String) (m : String) (deg : String → Int) (x : String)
    (hx : x ≠ m) :
    (l.foldl (fun d dep => if dep ∈ ms then updateFn d m (d m + 1) else d) deg) x = deg x := by
  induction l generalizing deg with
  | nil => rfl
  | cons dep rest ih =>
    rw [List.foldl_cons]
    by_cases hd : dep ∈ ms
    · rw [if_pos hd, ih]
      simp [updateFn, hx]
    · rw [if_neg hd, ih]

theorem initDeg_go_not_mem (graph : List (String × List String)) (ms0 ms : List String)
    (deg : String → Int) (m : String) : m ∉ ms →
    (ms.foldl (fun deg mm =>
      (graphGet graph mm).foldl (fun d dep => if dep ∈ ms0 then updateFn d mm (d mm + 1) else d) deg)
      deg) m = deg m := by
  induction ms generalizing deg with
  | nil => intro _; rfl
  | cons x rest ih =>
    intro hm
    have hmx : m ≠ x := fun h => hm (h ▸ List.mem_cons_self _ _)
    rw [List.foldl_cons]
    rw [ih _ (fun h => hm (List.mem_cons_of_mem _ h))]
    exact innerDeg_ne ms0 _ x deg m hmx

theorem initDeg_go_mem (graph : List (String × List String)) (ms0 ms : List String)
    (deg : String → Int) (m : String) : ms.Nodup → m ∈ ms →
    (ms.foldl (fun deg mm =>
      (graphGet graph mm).foldl (fun d dep => if dep ∈ ms0 then updateFn d mm (d mm + 1) else d) deg)
      deg) m = deg m + (((graphGet graph m).filter (fun d => decide (d ∈ ms0))).length : Int) := by
  induction ms generalizing deg with
  | nil => intro _ hm; cases hm
  | cons x rest ih =>
    intro hnd hm
    rw [List.foldl_cons]
    by_cases hmx : m = x
    · subst hmx
      have hmr : m ∉ rest := (List.nodup_cons.mp hnd).1
      rw [initDeg_go_not_mem graph ms0 rest _ m hmr]
      exact innerDeg_at ms0 _ m deg
    · rcases List.mem_cons.mp hm with h | hmr
      · exact absurd h hmx
      · rw [ih _ (List.nodup_cons.mp hnd).2 hmr]
        rw [innerDeg_ne ms0 _ x deg m hmx]

theorem initDeg_eq (graph : List (String × List String)) (ms : List String)
    (hnd : ms.Nodup) (m : String) (hm : m ∈ ms) :
    initDeg graph ms m = (((graphGet graph m).filter (fun d => decide (d ∈ ms))).length : Int) := by
  rw [initDeg, initDeg_go_mem graph ms ms _ m hnd hm]
  simp

theorem processCurrent_deg (graph : List (String × List String)) (ms : List String)
    (c : String) (deg : String → Int) (q : List String) (hnd : ms.Nodup) (m : String) :
    (processCurrent graph ms c deg q).1 m =
      if m ∈ ms ∧ c ∈ graphGet graph m then deg m - 1 else deg m := by
  induction ms generalizing deg q with
  | nil =>
    simp [processCurrent]
  | cons x rest ih =>
    rw [processCurrent, List.foldl_cons]
    have hstep : ∀ d q₀, rest.foldl (decStep graph c) (d, q₀) = processCurrent graph rest c d q₀ :=
      fun d q₀ => rfl
    by_cases hcx : c ∈ graphGet graph x
    · have hds : decStep graph c (deg, q) x =
        (updateFn deg x (deg x - 1),
          if updateFn deg x (deg x - 1) x = 0 then q ++ [x] else q) := by
        rw [decStep, if_pos hcx]
        by_cases hz : updateFn deg x (deg x - 1) x = 0
        · rw [if_pos hz, if_pos hz]
        · rw [if_neg hz, if_neg hz]
      rw [hds, hstep, ih _ _ (List.nodup_cons.mp hnd).2]
      by_cases hmx : m = x
      · subst hmx
        have hmr : m ∉ rest := (List.nodup_cons.mp hnd).1
        rw [if_neg (fun hc => hmr hc.1), if_pos ⟨List.mem_cons_self _ _, hcx⟩]
        simp [updateFn]
      · have hu : updateFn deg x (deg x - 1) m = deg m := by simp [updateFn, hmx]
        rw [hu]
        by_cases hmm : m ∈ rest ∧ c ∈ graphGet graph m
        · rw [if_pos hmm, if_pos ⟨List.mem_cons_of_mem _ hmm.1, hmm.2⟩]
        · rw [if_neg hmm, if_neg (fun hc => hmm ⟨?_, hc.2⟩)]
          rcases List.mem_cons.mp hc.1 with h | h
          · exact absurd h hmx
          · exact h
    · have hds : decStep graph c (deg, q) x = (deg, q) := by
        rw [decStep, if_neg hcx]
      rw [hds, hstep, ih _ _ (List.nodup_cons.mp hnd).2]
      by_cases hmx : m = x
      · subst hmx
        rw [if_neg (fun hc => hcx hc.2), if_neg (fun hc => hcx hc.2)]
      · by_cases hmm : m ∈ rest ∧ c ∈ graphGet graph m
        · rw [if_pos hmm, if_pos ⟨List.mem_cons_of_mem _ hmm.1, hmm.2⟩]
        · rw [if_neg hmm, if_neg (fun hc => hmm ⟨?_, hc.2⟩)]
          rcases List.mem_cons.mp hc.1 with h | h
          · exact absurd h hmx
          · exact h

theorem processCurrent_queue (graph : List (String × List String)) (ms : List String)
    (c : String) (deg : String → Int) (q : List String) (hnd : ms.Nodup) :
    (processCurrent graph ms c deg q).2 =
      q ++ ms.filter (fun m => decide (c ∈ graphGet graph m) && decide (deg m = 1)) := by
  induction ms generalizing deg q with
  | nil => simp [processCurrent]
  | cons x rest ih =>
    rw [processCurrent, List.foldl_cons]
    have hstep : ∀ d q₀, rest.foldl (decStep graph c) (d, q₀) = processCurrent graph rest c d q₀ :=
      fun d q₀ => rfl
    have hfc : ∀ d : String → Int, (∀ m ∈ rest, d m = deg m) →
        rest.filter (fun m => decide (c ∈ graphGet graph m) && decide (d m = 1)) =
        rest.filter (fun m => decide (c ∈ graphGet graph m) && decide (deg m = 1)) := by
      intro d hd
      apply List.filter_congr
      intro m hm
      rw [hd m hm]
    by_cases hcx : c ∈ graphGet graph x
    · have hds : decStep graph c (deg, q) x =
        (updateFn deg x (deg x - 1),
          if updateFn deg x (deg x - 1) x = 0 then q ++ [x] else q) := by
        rw [decStep, if_pos hcx]
        by_cases hz : updateFn deg x (deg x - 1) x = 0
        · rw [if_pos hz, if_pos hz]
        · rw [if_neg hz, if_neg hz]
      have hux : updateFn deg x (deg x - 1) x = deg x - 1 := by simp [updateFn]
      have hur : ∀ m ∈ rest, updateFn deg x (deg x - 1) m = deg m := by
        intro m hm
        have hmx : m ≠ x := fun h => (List.nodup_cons.mp hnd).1 (h ▸ hm)
        simp [updateFn, hmx]
      rw [hds, hstep, ih _ _ (List.nodup_cons.mp hnd).2, hfc _ hur]
      rw [List.filter_cons]
      by_cases hz : deg x = 1
      · have h0 : updateFn deg x (deg x - 1) x = 0 := by rw [hux, hz]; ring
        rw [if_pos h0, if_pos (by simp [hcx, hz])]
        simp
      · have h0 : ¬ updateFn deg x (deg x - 1) x = 0 := by
          rw [hux]
          intro hc
          exact hz (by omega)
        rw [if_neg h0, if_neg (by simp [hcx, hz])]
    · have hds : decStep graph c (deg, q) x = (deg, q) := by
        rw [decStep, if_neg hcx]
      rw [hds, hstep, ih _ _ (List.nodup_cons.mp hnd).2]
      rw [List.filter_cons, if_neg (by simp [hcx])]

theorem sum_toNat_le_pointwise (L : List String) (f g : String → Int)
    (h : ∀ x ∈ L, (f x).toNat ≤ (g x).toNat) :
    (L.map (fun m => (f m).toNat)).sum ≤ (L.map (fun m => (g m).toNat)).sum := by
  induction L with
  | nil => exact Nat.le_refl _
  | cons x rest ih =>
    simp only [List.map_cons, List.sum_cons]
    exact Nat.add_le_add (h x (List.mem_cons_self _ _))
      (ih (fun y hy => h y (List.mem_cons_of_mem _ hy)))

theorem sum_toNat_lt_of_mem (L : List String) (f g : String → Int) (x0 : String)
    (hx0 : x0 ∈ L) (hlt : (f x0).toNat + 1 ≤ (g x0).toNat)
    (h : ∀ x ∈ L, (f x).toNat ≤ (g x).toNat) :
    (L.map (fun m => (f m).toNat)).sum + 1 ≤ (L.map (fun m => (g m).toNat)).sum := by
  induction L with
  | nil => cases hx0
  | cons x rest ih =>
    simp only [List.map_cons, List.sum_cons]
    rcases List.mem_cons.mp hx0 with heq | hx0'
    · have hr := sum_toNat_le_pointwise rest f g (fun y hy => h y (List.mem_cons_of_mem _ hy))
      rw [heq] at hlt
      omega
    · have hx := h x (List.mem_cons_self _ _)
      have hr := ih hx0' (fun y hy => h y (List.mem_cons_of_mem _ hy))
      omega

theorem processCurrent_measure (graph : List (String × List String)) (ms L : List String)
    (c : String) (deg : String → Int) (q : List String) (hsub : ∀ x ∈ ms, x ∈ L) :
    (processCurrent graph ms c deg q).2.length +
      (L.map (fun m => ((processCurrent graph ms c deg q).1 m).toNat)).sum ≤
      q.length + (L.map (fun m => (deg m).toNat)).sum := by
  induction ms generalizing deg q with
  | nil => exact Nat.le_refl _
  | cons x rest ih =>
    rw [processCurrent, List.foldl_cons]
    have hstep : ∀ d q₀, rest.foldl (decStep graph c) (d, q₀) = processCurrent graph rest c d q₀ :=
      fun d q₀ => rfl
    have hsub' : ∀ y ∈ rest, y ∈ L := fun y hy => hsub y (List.mem_cons_of_mem _ hy)
    by_cases hcx : c ∈ graphGet graph x
    · have hds : decStep graph c (deg, q) x =
        (updateFn deg x (deg x - 1),
          if updateFn deg x (deg x - 1) x = 0 then q ++ [x] else q) := by
        rw [decStep, if_pos hcx]
        by_cases hz : updateFn deg x (deg x - 1) x = 0
        · rw [if_pos hz, if_pos hz]
        · rw [if_neg hz, if_neg hz]
      have hux : updateFn deg x (deg x - 1) x = deg x - 1 := by simp [updateFn]
      have hple : ∀ y ∈ L, ((updateFn deg x (deg x - 1)) y).toNat ≤ (deg y).toNat := by
        intro y hy
        by_cases hyx : y = x
        · subst hyx
          rw [hux]
          omega
        · simp [updateFn, hyx]
      rw [hds, hstep]
      by_cases hz : updateFn deg x (deg x - 1) x = 0
      · rw [if_pos hz]
        refine Nat.le_trans (ih (updateFn deg x (deg x - 1)) (q ++ [x]) hsub') ?_
        rw [List.length_append, List.length_singleton]
        rw [hux] at hz
        by_cases hdx : deg x ≥ 1
        · have hlt : ((updateFn deg x (deg x - 1)) x).toNat + 1 ≤ (deg x).toNat := by
            rw [hux]
            omega
          have := sum_toNat_lt_of_mem L (updateFn deg x (deg x - 1)) deg x
            (hsub x (List.mem_cons_self _ _)) hlt hple
          omega
        · omega
      · rw [if_neg hz]
        refine Nat.le_trans (ih (updateFn deg x (deg x - 1)) q hsub') ?_
        have := sum_toNat_le_pointwise L (updateFn deg x (deg x - 1)) deg hple
        omega
    · have hds : decStep graph c (deg, q) x = (deg, q) := by
        rw [decStep, if_neg hcx]
      rw [hds, hstep]
      exact ih deg q hsub'

theorem degTarget_zero_iff (graph : List (String × List String)) (ms result : List String)
    (m : String) : degTarget graph ms result m = 0 ↔
      ∀ d ∈ graphGet graph m, d ∈ ms → d ∈ result := by
  rw [degTarget]
  rw [show ((((graphGet graph m).filter
      (fun d => decide (d ∈ ms) && decide (d ∉ result))).length : Nat) : Int) = 0 ↔
      ((graphGet graph m).filter (fun d => decide (d ∈ ms) && decide (d ∉ result))).length = 0 by
    omega]
  rw [List.length_eq_zero, List.filter_eq_nil_iff]
  constructor
  · intro h d hd hdm
    by_contra hdr
    exact h d hd (by simp [hdm, hdr])
  · intro h d hd
    simp only [Bool.and_eq_true, decide_eq_true_eq, not_and]
    intro hdm
    simp [h d hd hdm]

theorem orderOK_degTarget_zero (graph : List (String × List String)) (ms result : List String)
    (hord : OrderOK graph ms result) (m : String) (hm : m ∈ result) :
    degTarget graph ms result m = 0 := by
  rw [degTarget_zero_iff]
  intro d hd hdm
  obtain ⟨i, hi⟩ := List.mem_iff_getElem?.mp hm
  obtain ⟨j, _, hj⟩ := hord i m hi d hd hdm
  obtain ⟨hjlen, hjv⟩ := List.getElem?_eq_some.mp hj
  exact hjv ▸ List.getElem_mem hjlen

theorem filter_length_remove (l : List String) (p : String → Bool) (c : String)
    (hnd : l.Nodup) (hc : c ∈ l) (hpc : p c = true) :
    (l.filter (fun d => p d && !(d == c))).length + 1 = (l.filter p).length := by
  induction l with
  | nil => cases hc
  | cons a t ih =>
    rw [List.filter_cons, List.filter_cons]
    by_cases hac : a = c
    · subst hac
      have hat : a ∉ t := (List.nodup_cons.mp hnd).1
      have hft : t.filter (fun d => p d && !(d == a)) = t.filter p := by
        apply List.filter_congr
        intro d hd
        have hda : d ≠ a := fun h => hat (h ▸ hd)
        simp [hda]
      rw [if_pos hpc, hft]
      simp
    · rcases List.mem_cons.mp hc with h | hct
      · exact absurd h.symm hac
      · have haceq : (a == c) = false := beq_eq_false_iff_ne.mpr hac
        rw [haceq]
        simp only [Bool.not_false, Bool.and_true]
        by_cases hpa : p a = true
        · rw [if_pos hpa, if_pos hpa]
          have hih := ih (List.nodup_cons.mp hnd).2 hct
          simp only [List.length_cons]
          omega
        · rw [if_neg hpa, if_neg hpa]
          exact ih (List.nodup_cons.mp hnd).2 hct

theorem sortStrings_length (l : List String) : (sortStrings l).length = l.length :=
  (sortStrings_perm l).length_eq

theorem sortStrings_nil_iff (l : List String) : sortStrings l = [] ↔ l = [] := by
  constructor
  · intro h
    have := sortStrings_length l
    rw [h] at this
    exact List.length_eq_zero.mp this.symm
  · rintro rfl
    rfl

theorem kahnInv_step (graph : List (String × List String)) (ms : List String)
    (hndms : ms.Nodup) (hG : ∀ m ∈ ms, (graphGet graph m).Nodup)
    (queue : List String) (deg : String → Int) (result : List String)
    (inv : KahnInv graph ms queue deg result)
    (c : String) (rest : List String) (hsort : sortStrings queue = c :: rest) :
    KahnInv graph ms (processCurrent graph ms c deg rest).2
      (processCurrent graph ms c deg rest).1 (result ++ [c]) := by
  have hperm : List.Perm (c :: rest) queue := by
    have h := sortStrings_perm queue
    rw [hsort] at h
    exact h
  have hcq : c ∈ queue := hperm.mem_iff.mp (List.mem_cons_self _ _)
  have hcm : c ∈ ms := inv.queue_sub c hcq
  have hcr : c ∉ result := inv.queue_disj c hcq
  have hdegc : deg c = 0 := (inv.queue_iff c hcm hcr).mp hcq
  have hdepsc : ∀ d ∈ graphGet graph c, d ∈ ms → d ∈ result := by
    have h := inv.deg_eq c hcm
    rw [hdegc] at h
    exact (degTarget_zero_iff graph ms result c).mp h.symm
  have hndcr : (c :: rest).Nodup := (hperm.nodup_iff).mpr inv.queue_nodup
  have hcnr : c ∉ rest := (List.nodup_cons.mp hndcr).1
  have hndr : rest.Nodup := (List.nodup_cons.mp hndcr).2
  have hrq : ∀ x ∈ rest, x ∈ queue := fun x hx => hperm.mem_iff.mp (List.mem_cons_of_mem _ hx)
  have hqr : ∀ x ∈ queue, x ≠ c → x ∈ rest := by
    intro x hx hxc
    rcases List.mem_cons.mp (hperm.mem_iff.mpr hx) with h | h
    · exact absurd h hxc
    · exact h
  have hdeg := processCurrent_deg graph ms c deg rest hndms
  have hque := processCurrent_queue graph ms c deg rest hndms
  have hAmem : ∀ x ∈ ms.filter (fun m => decide (c ∈ graphGet graph m) && decide (deg m = 1)),
      x ∈ ms ∧ c ∈ graphGet graph x ∧ deg x = 1 := by
    intro x hx
    obtain ⟨hx1, hx2⟩ := List.mem_filter.mp hx
    simp only [Bool.and_eq_true, decide_eq_true_eq] at hx2
    exact ⟨hx1, hx2.1, hx2.2⟩
  have hAnr : ∀ x ∈ ms.filter (fun m => decide (c ∈ graphGet graph m) && decide (deg m = 1)),
      x ∉ result := by
    intro x hx hxres
    obtain ⟨hx1, hx2, hx3⟩ := hAmem x hx
    have h0 := orderOK_degTarget_zero graph ms result inv.order_ok x hxres
    have hde := inv.deg_eq x hx1
    rw [h0] at hde
    omega
  have hAnq : ∀ x ∈ ms.filter (fun m => decide (c ∈ graphGet graph m) && decide (deg m = 1)),
      x ∉ queue := by
    intro x hx hxq
    obtain ⟨hx1, hx2, hx3⟩ := hAmem x hx
    have h := (inv.queue_iff x hx1 (hAnr x hx)).mp hxq
    omega
  have hAnd : (ms.filter (fun m => decide (c ∈ graphGet graph m) && decide (deg m = 1))).Nodup :=
    hndms.filter _
  refine ⟨?_, ?_, ?_, ?_, ?_, ?_, ?_, ?_⟩
  · rw [List.nodup_append]
    refine ⟨inv.result_nodup, List.nodup_singleton _, ?_⟩
    intro x hx hxc
    rw [List.mem_singleton] at hxc
    subst hxc
    exact hcr hx
  · intro x hx
    rcases List.mem_append.mp hx with h | h
    · exact inv.result_sub x h
    · rw [List.mem_singleton] at h
      subst h
      exact hcm
  · rw [hque, List.nodup_append]
    refine ⟨hndr, hAnd, ?_⟩
    intro x hx hxA
    exact hAnq x hxA (hrq x hx)
  · intro x hx
    rw [hque] at hx
    rcases List.mem_append.mp hx with h | h
    · exact inv.queue_sub x (hrq x h)
    · exact (hAmem x h).1
  · intro x hx
    rw [hque] at hx
    rw [List.mem_append] at hx
    intro hmem
    rw [List.mem_append, List.mem_singleton] at hmem
    rcases hx with hx | hx
    · rcases hmem with h | h
      · exact inv.queue_disj x (hrq x hx) h
      · exact hcnr (h ▸ hx)
    · rcases hmem with h | h
      · exact hAnr x hx h
      · obtain ⟨_, _, hx3⟩ := hAmem x hx
        subst h
        omega
  · intro m hm
    rw [hdeg m]
    have hGm := hG m hm
    have htar : degTarget graph ms (result ++ [c]) m =
        ((((graphGet graph m).filter
          (fun d => (decide (d ∈ ms) && decide (d ∉ result)) && !(d == c))).length : Nat) : Int) := by
      rw [degTarget]
      congr 2
      apply List.filter_congr
      intro d _
      by_cases h1 : d ∈ ms <;> by_cases h2 : d ∈ result <;> by_cases h3 : d = c <;>
        simp [h1, h2, h3, List.mem_append]
    by_cases hcGm : c ∈ graphGet graph m
    · rw [if_pos ⟨hm, hcGm⟩]
      have hrem : ((graphGet graph m).filter
            (fun d => (decide (d ∈ ms) && decide (d ∉ result)) && !(d == c))).length + 1 =
          ((graphGet graph m).filter (fun d => decide (d ∈ ms) && decide (d ∉ result))).length :=
        filter_length_remove (graphGet graph m)
          (fun d => decide (d ∈ ms) && decide (d ∉ result)) c hGm hcGm (by simp [hcm, hcr])
      have hde := inv.deg_eq m hm
      rw [degTarget] at hde
      rw [htar]
      omega
    · rw [if_neg (fun hc => hcGm hc.2)]
      have hfeq : (graphGet graph m).filter
          (fun d => (decide (d ∈ ms) && decide (d ∉ result)) && !(d == c)) =
          (graphGet graph m).filter (fun d => decide (d ∈ ms) && decide (d ∉ result)) := by
        apply List.filter_congr
        intro d hd
        have hdc : d ≠ c := fun h => hcGm (h ▸ hd)
        simp [hdc]
      rw [htar, hfeq]
      have hde := inv.deg_eq m hm
      rw [degTarget] at hde
      exact hde
  · intro m hm hmres
    rw [List.mem_append, List.mem_singleton] at hmres
    push_neg at hmres
    obtain ⟨hmr, hmc⟩ := hmres
    rw [hque, hdeg m, List.mem_append]
    by_cases hcGm : c ∈ graphGet graph m
    · rw [if_pos ⟨hm, hcGm⟩]
      by_cases h1 : deg m = 1
      · constructor
        · intro _
          omega
        · intro _
          right
          exact List.mem_filter.mpr ⟨hm, by simp [hcGm, h1]⟩
      · constructor
        · rintro (hx | hx)
          · exfalso
            have hmq := hrq m hx
            have hdm0 := (inv.queue_iff m hm hmr).mp hmq
            have hde := inv.deg_eq m hm
            rw [hdm0] at hde
            have hall := (degTarget_zero_iff graph ms result m).mp hde.symm
            exact hcr (hall c hcGm hcm)
          · exfalso
            obtain ⟨_, _, h3⟩ := hAmem m hx
            exact h1 h3
        · intro h0
          exfalso
          exact h1 (by omega)
    · rw [if_neg (fun hc => hcGm hc.2)]
      constructor
      · rintro (hx | hx)
        · exact (inv.queue_iff m hm hmr).mp (hrq m hx)
        · obtain ⟨_, h2, _⟩ := hAmem m hx
          exact absurd h2 hcGm
      · intro h0
        left
        exact hqr m ((inv.queue_iff m hm hmr).mpr h0) hmc
  · intro i m hi d hd hdm
    have hitotal : i < result.length + 1 := by
      by_contra hge
      push_neg at hge
      rw [List.getElem?_eq_none (by rw [List.length_append, List.length_singleton]; omega)] at hi
      cases hi
    by_cases hilt : i < result.length
    · rw [List.getElem?_append_left hilt] at hi
      obtain ⟨j, hji, hj⟩ := inv.order_ok i m hi d hd hdm
      exact ⟨j, hji, by
        rw [List.getElem?_append_left (Nat.lt_trans hji hilt)]
        exact hj⟩
    · have hieq : i = result.length := by omega
      subst hieq
      rw [List.getElem?_concat_length] at hi
      cases hi
      have hdr := hdepsc d hd hdm
      obtain ⟨j, hj⟩ := List.mem_iff_getElem?.mp hdr
      have hjlen : j < result.length := (List.getElem?_eq_some.mp hj).1
      exact ⟨j, hjlen, by
        rw [List.getElem?_append_left hjlen]
        exact hj⟩

theorem kahnStep_measure (graph : List (String × List String)) (ms queue : List String)
    (deg : String → Int) (c : String) (rest : List String)
    (hsort : sortStrings queue = c :: rest) :
    kahnMeasure ms (processCurrent graph ms c deg rest).2 (processCurrent graph ms c deg rest).1 <
      kahnMeasure ms queue deg := by
  have hq : queue.length = rest.length + 1 := by
    have h := sortStrings_length queue
    rw [hsort] at h
    simpa using h.symm
  have hpc := processCurrent_measure graph ms ms c deg rest (fun x hx => hx)
  rw [kahnMeasure, kahnMeasure, hq]
  omega

theorem kahnLoop_final (graph : List (String × List String)) (ms : List String)
    (hndms : ms.Nodup) (hG : ∀ m ∈ ms, (graphGet graph m).Nodup) :
    ∀ (fuel : Nat) (queue : List String) (deg : String → Int) (result : List String),
    kahnMeasure ms queue deg < fuel →
    KahnInv graph ms queue deg result →
    (∃ ext, kahnLoop graph ms fuel queue deg result = result ++ ext) ∧
    (kahnLoop graph ms fuel queue deg result).Nodup ∧
    (∀ x ∈ kahnLoop graph ms fuel queue deg result, x ∈ ms) ∧
    OrderOK graph ms (kahnLoop graph ms fuel queue deg result) ∧
    (∀ m ∈ ms, m ∉ kahnLoop graph ms fuel queue deg result →
      ∃ d, d ∈ graphGet graph m ∧ d ∈ ms ∧ d ∉ kahnLoop graph ms fuel queue deg result) := by
  intro fuel
  induction fuel with
  | zero =>
    intro queue deg result hmeas _
    exact absurd hmeas (Nat.not_lt_zero _)
  | succ fuel ih =>
    intro queue deg result hmeas inv
    cases hsort : sortStrings queue with
    | nil =>
      have hqnil : queue = [] := (sortStrings_nil_iff queue).mp hsort
      subst hqnil
      have hres : kahnLoop graph ms (fuel + 1) ([] : List String) deg result = result := rfl
      rw [hres]
      refine ⟨⟨[], by simp⟩, inv.result_nodup, inv.result_sub, inv.order_ok, ?_⟩
      intro m hm hmres
      have hq := inv.queue_iff m hm hmres
      have hdm : deg m ≠ 0 := fun h0 => absurd (hq.mpr h0) (List.not_mem_nil m)
      have hde := inv.deg_eq m hm
      have hne : ¬ degTarget graph ms result m = 0 := fun h0 => hdm (by rw [hde, h0])
      rw [degTarget_zero_iff] at hne
      push_neg at hne
      exact hne
    | cons c rest =>
      have hstep := kahnInv_step graph ms hndms hG queue deg result inv c rest hsort
      have hmeas2 := kahnStep_measure graph ms queue deg c rest hsort
      have hunf : kahnLoop graph ms (fuel + 1) queue deg result =
          kahnLoop graph ms fuel (processCurrent graph ms c deg rest).2
            (processCurrent graph ms c deg rest).1 (result ++ [c]) := by
        rw [kahnLoop, hsort]
      obtain ⟨⟨ext, hext⟩, hnodup, hsub, hord, hlast⟩ :=
        ih (processCurrent graph ms c deg rest).2 (processCurrent graph ms c deg rest).1
          (result ++ [c]) (by omega) hstep
      rw [hunf]
      refine ⟨⟨[c] ++ ext, by rw [hext, List.append_assoc]⟩, hnodup, hsub, hord, hlast⟩

theorem sort_fresh_master (r : ModuleRegistry) (modules : List String)
    (hreg : ∀ m ∈ modules, (r.get_metadata m).isSome)
    (hnd : modules.Nodup)
    (hjoin : ((modules.map (fun m => producesOf r m)).flatten).Nodup) :
    ∃ (g2 : DependencyGraph) (res : List String),
      g2.registry = r ∧
      g2.producers = producersFor r modules ∧
      (∀ m ∈ modules, graphGet g2.graph m = depsFor r modules m) ∧
      ((DependencyGraph.mk r [] []).topological_sort modules =
        if res.length = modules.length then .ok (g2, res)
        else .error (.circularDependency (modules.filter (fun m => !(res.contains m))))) ∧
      res.Nodup ∧ (∀ x ∈ res, x ∈ modules) ∧
      (∀ (i : Nat) (m : String), res[i]? = some m → ∀ d ∈ depsFor r modules m,
        ∃ j : Nat, j < i ∧ res[j]? = some d) ∧
      (∀ m ∈ modules, m ∉ res → ∃ d, d ∈ depsFor r modules m ∧ d ∉ res) := by
  obtain ⟨g1, hrun, hreg1, hprod1, hkeys1, hpres1⟩ :=
    addModules_ok_of (DependencyGraph.mk r [] []) modules hreg
      (fun m _ => alookup_nil m) hnd (fun m _ a _ => alookup_nil a) hjoin
  have hprod1' : g1.producers = producersFor r modules := by
    rw [hprod1]
    simp [producersFor]
  have hlook : ∀ m ∈ modules,
      alookup (rebuildGraph r (producersFor r modules) modules g1.graph) m =
        some (rebuildDeps (producersFor r modules) modules (requiresOf r m)) := by
    intro m hm
    obtain ⟨md, hmd⟩ := Option.isSome_iff_exists.mp (hreg m hm)
    have hre : requiresOf r m = md.requires := by rw [requiresOf, hmd]
    rw [hre]
    exact rebuildGraph_lookup_mem r (producersFor r modules) modules g1.graph m md hm hmd
  have hgg : ∀ m ∈ modules,
      graphGet (rebuildGraph r (producersFor r modules) modules g1.graph) m =
        depsFor r modules m := by
    intro m hm
    rw [graphGet, hlook m hm]
    rfl
  have hGnd : ∀ m ∈ modules,
      (graphGet (rebuildGraph r (producersFor r modules) modules g1.graph) m).Nodup := by
    intro m hm
    rw [hgg m hm]
    exact rebuildDeps_nodup _ _ _
  have hinv : KahnInv (rebuildGraph r (producersFor r modules) modules g1.graph) modules
      (modules.filter (fun m =>
        initDeg (rebuildGraph r (producersFor r modules) modules g1.graph) modules m == 0))
      (initDeg (rebuildGraph r (producersFor r modules) modules g1.graph) modules) [] := by
    refine ⟨List.nodup_nil, by simp, hnd.filter _, ?_, by simp, ?_, ?_, ?_⟩
    · intro x hx
      exact (List.mem_filter.mp hx).1
    · intro m hm
      rw [initDeg_eq _ modules hnd m hm, degTarget]
      congr 2
      apply List.filter_congr
      intro d _
      simp
    · intro m hm _
      rw [List.mem_filter]
      constructor
      · rintro ⟨_, h⟩
        simpa using h
      · intro h
        exact ⟨hm, by simpa using h⟩
    · intro i m hi d _ _
      rw [show (([] : List String))[i]? = none from by simp] at hi
      cases hi
  obtain ⟨_, hnodup, hsub, hord, hlast⟩ :=
    kahnLoop_final (rebuildGraph r (producersFor r modules) modules g1.graph) modules hnd hGnd
      (kahnMeasure modules
        (modules.filter (fun m =>
          initDeg (rebuildGraph r (producersFor r modules) modules g1.graph) modules m == 0))
        (initDeg (rebuildGraph r (producersFor r modules) modules g1.graph) modules) + 1)
      (modules.filter (fun m =>
        initDeg (rebuildGraph r (producersFor r modules) modules g1.graph) modules m == 0))
      (initDeg (rebuildGraph r (producersFor r modules) modules g1.graph) modules) []
      (Nat.lt_succ_self _) hinv
  refine ⟨⟨r, rebuildGraph r (producersFor r modules) modules g1.graph, producersFor r modules⟩,
    kahnLoop (rebuildGraph r (producersFor r modules) modules g1.graph) modules
      (kahnMeasure modules
        (modules.filter (fun m =>
          initDeg (rebuildGraph r (producersFor r modules) modules g1.graph) modules m == 0))
        (initDeg (rebuildGraph r (producersFor r modules) modules g1.graph) modules) + 1)
      (modules.filter (fun m =>
        initDeg (rebuildGraph r (producersFor r modules) modules g1.graph) modules m == 0))
      (initDeg (rebuildGraph r (producersFor r modules) modules g1.graph) modules) [],
    rfl, rfl, hgg, ?_, hnodup, hsub, ?_, ?_⟩
  · rw [DependencyGraph.topological_sort, hrun]
    dsimp only
    rw [hreg1, hprod1']
  · intro i m hi d hd
    have hm : m ∈ modules := by
      apply hsub
      obtain ⟨hlen, hv⟩ := List.getElem?_eq_some.mp hi
      exact hv ▸ List.getElem_mem hlen
    exact hord i m hi d (by rw [hgg m hm]; exact hd)
      (rebuildDeps_sub (producersFor r modules) modules (requiresOf r m) d hd)
  · intro m hm hmres
    obtain ⟨d, hd, hdm, hdr⟩ := hlast m hm hmres
    rw [hgg m hm] at hd
    exact ⟨d, hd, hdr⟩

theorem exists_min_rank (l : List String) (f : String → Nat) (h : l ≠ []) :
    ∃ m ∈ l, ∀ x ∈ l, f m ≤ f x := by
  induction l with
  | nil => cases h rfl
  | cons a t ih =>
    cases t with
    | nil =>
      refine ⟨a, List.mem_cons_self _ _, ?_⟩
      intro x hx
      rcases List.mem_cons.mp hx with rfl | hx'
      · exact Nat.le_refl _
      · cases hx'
    | cons b t2 =>
      obtain ⟨m, hm, hle⟩ := ih (by simp)
      by_cases hc : f a ≤ f m
      · refine ⟨a, List.mem_cons_self _ _, ?_⟩
        intro x hx
        rcases List.mem_cons.mp hx with rfl | hx'
        · exact Nat.le_refl _
        · exact Nat.le_trans hc (hle x hx')
      · refine ⟨m, List.mem_cons_of_mem _ hm, ?_⟩
        intro x hx
        rcases List.mem_cons.mp hx with rfl | hx'
        · exact Nat.le_of_lt (Nat.lt_of_not_le hc)
        · exact hle x hx'

theorem addProducers_append (ps : List (String × String)) (m : String) (l1 l2 : List String) :
    addProducers ps m (l1 ++ l2) = match addProducers ps m l1 with
      | .ok out => addProducers out m l2
      | .error e => .error e := by
  induction l1 generalizing ps with
  | nil => rfl
  | cons a rest ih =>
    rw [List.cons_append, addProducers, addProducers]
    cases hla : alookup ps a with
    | some q => rfl
    | none => exact ih _

theorem addModules_all_present (g : DependencyGraph) (ms : List String)
    (h : ∀ m ∈ ms, (alookup g.graph m).isSome) : addModules g ms = .ok g := by
  induction ms with
  | nil => rfl
  | cons m rest ih =>
    rw [addModules, if_pos (h m (List.mem_cons_self _ _))]
    exact ih (fun x hx => h x (List.mem_cons_of_mem _ hx))

theorem addModules_ok_metadata (g : DependencyGraph) (ms : List String) (g' : DependencyGraph)
    (h : addModules g ms = .ok g') :
    ∀ m ∈ ms, (alookup g.graph m).isSome ∨ (g.registry.get_metadata m).isSome := by
  induction ms generalizing g with
  | nil => intro m hm; cases hm
  | cons x rest ih =>
    rw [addModules] at h
    intro m hm
    by_cases hg : (alookup g.graph x).isSome
    · rw [if_pos hg] at h
      rcases List.mem_cons.mp hm with rfl | hm'
      · exact Or.inl hg
      · exact ih g h m hm'
    · rw [if_neg hg] at h
      cases hadd : g.add_module x with
      | error e => rw [hadd] at h; cases h
      | ok g1 =>
        rw [hadd] at h
        obtain ⟨md, hmd, hreg1, _, _, _, hgraph1⟩ := add_module_ok_inv _ _ _ hadd
        rcases List.mem_cons.mp hm with rfl | hm'
        · exact Or.inr (by rw [hmd]; rfl)
        · rcases ih g1 h m hm' with hleft | hright
          · rw [hgraph1] at hleft
            by_cases hmx : m = x
            · exact Or.inr (by rw [hmx, hmd]; rfl)
            · rw [alookup_aset_ne _ _ _ _ hmx] at hleft
              exact Or.inl hleft
          · rw [hreg1] at hright
            exact Or.inr hright

theorem rebuildGraph_go_idem (r : ModuleRegistry) (ps : List (String × String))
    (ms0 : List String) (ms : List String) (graph0 : List (String × List String))
    (h : ∀ m ∈ ms, ∀ md, r.get_metadata m = some md →
      alookup graph0 m = some (rebuildDeps ps ms0 md.requires)) :
    ms.foldl (fun graph x =>
        match r.get_metadata x with
        | none => graph
        | some metadata => aset graph x (rebuildDeps ps ms0 metadata.requires)) graph0 =
      graph0 := by
  induction ms with
  | nil => rfl
  | cons x rest ih =>
    rw [List.foldl_cons]
    cases hx : r.get_metadata x with
    | none => exact ih (fun m hm => h m (List.mem_cons_of_mem _ hm))
    | some md =>
      dsimp only
      rw [aset_eq_self _ _ _ (h x (List.mem_cons_self _ _) md hx)]
      exact ih (fun m hm => h m (List.mem_cons_of_mem _ hm))

theorem checkRequires_all_ok (g : DependencyGraph) (modules : List String) (mn : String)
    (rl : List String) (h : ∀ a ∈ rl, ∃ p, alookup g.producers a = some p ∧ p ∈ modules) :
    checkRequires g modules mn rl = none := by
  induction rl with
  | nil => rfl
  | cons a rest ih =>
    obtain ⟨p, hp, hpm⟩ := h a (List.mem_cons_self _ _)
    rw [checkRequires, hp]
    dsimp only
    rw [if_pos hpm]
    exact ih (fun b hb => h b (List.mem_cons_of_mem _ hb))

theorem checkRequires_append_ok (g : DependencyGraph) (modules : List String) (mn : String)
    (l1 l2 : List String)
    (h : ∀ a ∈ l1, ∃ p, alookup g.producers a = some p ∧ p ∈ modules) :
    checkRequires g modules mn (l1 ++ l2) = checkRequires g modules mn l2 := by
  induction l1 with
  | nil => rfl
  | cons a rest ih =>
    obtain ⟨p, hp, hpm⟩ := h a (List.mem_cons_self _ _)
    rw [List.cons_append, checkRequires, hp]
    dsimp only
    rw [if_pos hpm]
    exact ih (fun b hb => h b (List.mem_cons_of_mem _ hb))

theorem checkModules_append_ok (g : DependencyGraph) (modules : List String)
    (l1 l2 : List String)
    (h : ∀ m ∈ l1, ∀ md, g.registry.get_metadata m = some md →
      checkRequires g modules m md.requires = none) :
    checkModules g modules (l1 ++ l2) = checkModules g modules l2 := by
  induction l1 with
  | nil => rfl
  | cons m rest ih =>
    rw [List.cons_append, checkModules]
    cases hm : g.registry.get_metadata m with
    | none => exact ih (fun x hx => h x (List.mem_cons_of_mem _ hx))
    | some md =>
      dsimp only
      rw [h m (List.mem_cons_self _ _) md hm]
      exact ih (fun x hx => h x (List.mem_cons_of_mem _ hx))

/-- Claim C1: for every registry and selection whose dependency graph is
acyclic (it admits a rank function decreasing along dependency edges)
and whose required artifacts all have producers within the selection,
`topological_sort` on a fresh graph succeeds and places every producer
of an artifact a module requires (restricted to the selection) at a
strictly earlier index than that module; every selected module is
placed. -/
theorem c1_topological_sort_ordering (r : ModuleRegistry) (modules : List String)
    (hreg : ∀ m ∈ modules, (r.get_metadata m).isSome)
    (hnd : modules.Nodup)
    (hjoin : ((modules.map (fun m => producesOf r m)).flatten).Nodup)
    (hcover : ∀ m ∈ modules, ∀ a ∈ requiresOf r m, ∃ p ∈ modules, a ∈ producesOf r p)
    (hacyc : ∃ rank : String → Nat, ∀ m ∈ modules, ∀ d ∈ depsFor r modules m, rank d < rank m) :
    ∃ (g : DependencyGraph) (res : List String),
      (DependencyGraph.mk r [] []).topological_sort modules = .ok (g, res) ∧
      (∀ m ∈ modules, m ∈ res) ∧ res.Nodup ∧
      (∀ (j : Nat) (m : String), res[j]? = some m → ∀ d ∈ depsFor r modules m,
        ∃ i : Nat, i < j ∧ res[i]? = some d) := by
  obtain ⟨g2, res, hg2r, hg2p, hgg, hrun, hnodup, hsub, hord, hlast⟩ :=
    sort_fresh_master r modules hreg hnd hjoin
  obtain ⟨rank, hrank⟩ := hacyc
  have hcomplete : ∀ m ∈ modules, m ∈ res := by
    by_contra hcon
    push_neg at hcon
    obtain ⟨m0, hm0, hm0r⟩ := hcon
    have hS0 : modules.filter (fun m => decide (m ∉ res)) ≠ [] := by
      intro h
      have hm0S : m0 ∈ modules.filter (fun m => decide (m ∉ res)) :=
        List.mem_filter.mpr ⟨hm0, by simpa using hm0r⟩
      rw [h] at hm0S
      cases hm0S
    obtain ⟨mmin, hminS, hminle⟩ :=
      exists_min_rank (modules.filter (fun m => decide (m ∉ res))) rank hS0
    have hminmod : mmin ∈ modules := (List.mem_filter.mp hminS).1
    have hminres : mmin ∉ res := by simpa using (List.mem_filter.mp hminS).2
    obtain ⟨d, hd, hdres⟩ := hlast mmin hminmod hminres
    have hdmod : d ∈ modules := rebuildDeps_sub _ _ _ d hd
    have hdS : d ∈ modules.filter (fun m => decide (m ∉ res)) :=
      List.mem_filter.mpr ⟨hdmod, by simpa using hdres⟩
    have h1 := hrank mmin hminmod d hd
    have h2 := hminle d hdS
    omega
  have hlen : res.length = modules.length := by
    have h1 : res.length ≤ modules.length :=
      (List.subperm_of_subset hnodup (fun x hx => hsub x hx)).length_le
    have h2 : modules.length ≤ res.length :=
      (List.subperm_of_subset hnd (fun x hx => hcomplete x hx)).length_le
    omega
  rw [if_pos hlen] at hrun
  exact ⟨g2, res, hrun, hcomplete, hnodup, hord⟩

/-- Witness for C1 at a concrete two-module pipeline. -/
theorem c1_witness :
    ((∀ m ∈ ["compile", "configure"], (wRegistry.get_metadata m).isSome) ∧
      (["compile", "configure"] : List String).Nodup ∧
      ((["compile", "configure"].map (fun m => producesOf wRegistry m)).flatten).Nodup ∧
      (∀ m ∈ ["compile", "configure"], ∀ a ∈ requiresOf wRegistry m,
        ∃ p ∈ ["compile", "configure"], a ∈ producesOf wRegistry p) ∧
      (∀ m ∈ ["compile", "configure"],
        ∀ d ∈ depsFor wRegistry ["compile", "configure"] m,
        (if d = "configure" then 0 else 1) < (if m = "configure" then 0 else 1))) ∧
    (∃ (g : DependencyGraph) (res : List String),
      (DependencyGraph.mk wRegistry [] []).topological_sort ["compile", "configure"] =
        .ok (g, res) ∧
      (∀ m ∈ ["compile", "configure"], m ∈ res) ∧ res.Nodup ∧
      (∀ (j : Nat) (m : String), res[j]? = some m →
        ∀ d ∈ depsFor wRegistry ["compile", "configure"] m,
        ∃ i : Nat, i < j ∧ res[i]? = some d)) :=
  ⟨⟨by decide, by decide, by decide, by decide, by decide⟩,
    c1_topological_sort_ordering wRegistry ["compile", "configure"]
      (by decide) (by decide) (by decide) (by decide)
      ⟨fun s => if s = "configure" then 0 else 1, by decide⟩⟩

/-- Claim C4: for every selection containing a nonempty set of modules
each of which depends (within the selection) on another member of the
set, `topological_sort` raises the circular-dependency error listing
exactly the selected modules not placed in the (internal, partial)
result, a nonempty subset of the selection containing the whole cycle
set; it never returns an ordered list. -/
theorem c4_circular_error (r : ModuleRegistry) (modules : List String)
    (hreg : ∀ m ∈ modules, (r.get_metadata m).isSome)
    (hnd : modules.Nodup)
    (hjoin : ((modules.map (fun m => producesOf r m)).flatten).Nodup)
    (S : List String) (hS0 : S ≠ []) (hSsub : ∀ x ∈ S, x ∈ modules)
    (hScyc : ∀ m ∈ S, ∃ d ∈ depsFor r modules m, d ∈ S) :
    ∃ rem, (DependencyGraph.mk r [] []).topological_sort modules =
        .error (.circularDependency rem) ∧
      rem ≠ [] ∧ (∀ x ∈ rem, x ∈ modules) ∧ (∀ x ∈ S, x ∈ rem) ∧
      (∀ (g : DependencyGraph) (res : List String),
        (DependencyGraph.mk r [] []).topological_sort modules ≠ .ok (g, res)) := by
  obtain ⟨g2, res, hg2r, hg2p, hgg, hrun, hnodup, hsub, hord, hlast⟩ :=
    sort_fresh_master r modules hreg hnd hjoin
  have hnoS : ∀ (i : Nat), ∀ m, res[i]? = some m → m ∉ S := by
    intro i
    induction i using Nat.strong_induction_on with
    | _ i ih =>
      intro m hi hmS
      obtain ⟨d, hd, hdS⟩ := hScyc m hmS
      obtain ⟨j, hji, hj⟩ := hord i m hi d hd
      exact ih j hji d hj hdS
  have hSres : ∀ x ∈ S, x ∉ res := by
    intro x hx hxres
    obtain ⟨i, hi⟩ := List.mem_iff_getElem?.mp hxres
    exact hnoS i x hi hx
  obtain ⟨m0, hm0S⟩ := List.exists_mem_of_ne_nil S hS0
  have hm0mod : m0 ∈ modules := hSsub m0 hm0S
  have hm0res : m0 ∉ res := hSres m0 hm0S
  have hlen : res.length ≠ modules.length := by
    intro hlen
    have hsub2 : res ⊆ modules.erase m0 := by
      intro x hx
      have hxm : x ∈ modules := hsub x hx
      have hxne : x ≠ m0 := fun h => hm0res (h ▸ hx)
      exact (List.mem_erase_of_ne hxne).mpr hxm
    have h1 : res.length ≤ (modules.erase m0).length :=
      (List.subperm_of_subset hnodup hsub2).length_le
    rw [List.length_erase_of_mem hm0mod] at h1
    have h2 : 0 < modules.length :=
      List.length_pos.mpr (fun h => by rw [h] at hm0mod; cases hm0mod)
    omega
  rw [if_neg hlen] at hrun
  refine ⟨modules.filter (fun m => !(res.contains m)), hrun, ?_, ?_, ?_, ?_⟩
  · intro h
    have hm0rem : m0 ∈ modules.filter (fun m => !(res.contains m)) := by
      refine List.mem_filter.mpr ⟨hm0mod, ?_⟩
      simp only [Bool.not_eq_true']
      exact (Bool.not_eq_true _).mp (fun hc => hm0res (List.elem_iff.mp hc))
    rw [h] at hm0rem
    cases hm0rem
  · intro x hx
    exact (List.mem_filter.mp hx).1
  · intro x hx
    refine List.mem_filter.mpr ⟨hSsub x hx, ?_⟩
    simp only [Bool.not_eq_true']
    exact (Bool.not_eq_true _).mp (fun hc => hSres x hx (List.elem_iff.mp hc))
  · intro g res0 hcontra
    rw [hrun] at hcontra
    cases hcontra

/-- Witness for C4 at a concrete two-module cycle. -/
theorem c4_witness :
    ((∀ m ∈ ["alpha", "beta"], (cycleRegistry.get_metadata m).isSome) ∧
      (["alpha", "beta"] : List String).Nodup ∧
      ((["alpha", "beta"].map (fun m => producesOf cycleRegistry m)).flatten).Nodup ∧
      (["alpha", "beta"] : List String) ≠ [] ∧
      (∀ x ∈ ["alpha", "beta"], x ∈ ["alpha", "beta"]) ∧
      (∀ m ∈ ["alpha", "beta"],
        ∃ d ∈ depsFor cycleRegistry ["alpha", "beta"] m, d ∈ ["alpha", "beta"])) ∧
    (∃ rem, (DependencyGraph.mk cycleRegistry [] []).topological_sort ["alpha", "beta"] =
        .error (.circularDependency rem) ∧
      rem ≠ [] ∧ (∀ x ∈ rem, x ∈ ["alpha", "beta"]) ∧ (∀ x ∈ ["alpha", "beta"], x ∈ rem) ∧
      (∀ (g : DependencyGraph) (res : List String),
        (DependencyGraph.mk cycleRegistry [] []).topological_sort ["alpha", "beta"] ≠
          .ok (g, res))) :=
  ⟨⟨by decide, by decide, by decide, by decide, by decide, by decide⟩,
    c4_circular_error cycleRegistry ["alpha", "beta"] (by decide) (by decide) (by decide)
      ["alpha", "beta"] (by decide) (by decide) (by decide)⟩

/-- Claim C2: the embedded `topological_sort` is a function of the graph
state and selection, so two invocations with the same inputs return the
same output; and at every iteration of the Kahn loop with a nonempty
ready queue, the module emitted next is a member of the queue that is
`strLe`-below every queue member (the lexicographically smallest ready
module, in code-point order). -/
theorem c2_deterministic_lex_tiebreak :
    (∀ (g : DependencyGraph) (modules : List String)
        (out1 out2 : Except DependencyError (DependencyGraph × List String)),
        g.topological_sort modules = out1 → g.topological_sort modules = out2 →
        out1 = out2) ∧
    (∀ (graph : List (String × List String)) (ms : List String) (fuel : Nat)
        (queue : List String) (deg : String → Int) (result : List String),
        queue ≠ [] →
        ∃ c rest, sortStrings queue = c :: rest ∧ c ∈ queue ∧
          (∀ x ∈ queue, strLe c x = true) ∧
          kahnLoop graph ms (fuel + 1) queue deg result =
            kahnLoop graph ms fuel (processCurrent graph ms c deg rest).2
              (processCurrent graph ms c deg rest).1 (result ++ [c])) := by
  constructor
  · intro g modules out1 out2 h1 h2
    rw [h1] at h2
    exact h2
  · intro graph ms fuel queue deg result hq
    cases hsort : sortStrings queue with
    | nil => exact absurd ((sortStrings_nil_iff queue).mp hsort) hq
    | cons c rest =>
      have hperm : List.Perm (c :: rest) queue := by
        have h := sortStrings_perm queue
        rw [hsort] at h
        exact h
      refine ⟨c, rest, rfl, hperm.mem_iff.mp (List.mem_cons_self _ _),
        sortStrings_head_min queue c rest hsort, ?_⟩
      rw [kahnLoop, hsort]

/-- Witness for C2: repeated call equality at a concrete graph, and the
lexicographic pick on the concrete ready queue `["module_b",
"module_a"]`. -/
theorem c2_witness :
    ((DependencyGraph.mk wRegistry [] []).topological_sort ["compile", "configure"] =
      (DependencyGraph.mk wRegistry [] []).topological_sort ["compile", "configure"]) ∧
    ((["module_b", "module_a"] : List String) ≠ []) ∧
    (∃ c rest, sortStrings ["module_b", "module_a"] = c :: rest ∧
      c ∈ ["module_b", "module_a"] ∧
      (∀ x ∈ ["module_b", "module_a"], strLe c x = true) ∧
      kahnLoop [] [] (0 + 1) ["module_b", "module_a"] (fun _ => 0) [] =
        kahnLoop [] [] 0
          (processCurrent [] [] c (fun _ => 0) rest).2
          (processCurrent [] [] c (fun _ => 0) rest).1 ([] ++ [c])) :=
  ⟨c2_deterministic_lex_tiebreak.1 (DependencyGraph.mk wRegistry [] [])
      ["compile", "configure"] _ _ rfl rfl,
    by decide,
    c2_deterministic_lex_tiebreak.2 [] [] 0 ["module_b", "module_a"] (fun _ => 0) []
      (by decide)⟩

/-- Claim C5: `add_module` fails with the multiple-producers error
naming both modules and the artifact as soon as a produces entry is
already mapped to a different module; and selecting two modules that
both produce the same artifact makes a fresh `topological_sort` fail
with a multiple-producers error during graph construction (no order is
ever attempted or returned). -/
theorem c5_multiple_producers :
    (∀ (g : DependencyGraph) (mn : String) (md : ModuleMetadata)
        (ppre : List String) (a : String) (prest : List String) (p : String),
        g.registry.get_metadata mn = some md →
        md.produces = ppre ++ a :: prest →
        (∀ b ∈ ppre, alookup g.producers b = none) →
        ppre.Nodup → a ∉ ppre →
        alookup g.producers a = some p → p ≠ mn →
        g.add_module mn = .error (.multipleProducers a p mn)) ∧
    (∀ (r : ModuleRegistry) (modules : List String) (m1 m2 a : String),
        (∀ m ∈ modules, (r.get_metadata m).isSome) →
        m1 ∈ modules → m2 ∈ modules → m1 ≠ m2 →
        a ∈ producesOf r m1 → a ∈ producesOf r m2 →
        ∃ x p q, (DependencyGraph.mk r [] []).topological_sort modules =
          .error (.multipleProducers x p q)) := by
  constructor
  · intro g mn md ppre a prest p hmeta hsplit hppre hndppre hanp hap hpmn
    rw [DependencyGraph.add_module, hmeta]
    dsimp only
    rw [hsplit, addProducers_append, addProducers_ok_of g.producers mn ppre hppre hndppre]
    dsimp only
    rw [addProducers]
    have hlook : alookup (g.producers ++ ppre.map (fun b => (b, mn))) a = some p := by
      rw [alookup_append, hap]
      rfl
    rw [hlook]
  · intro r modules m1 m2 a hreg hm1 hm2 hm12 ha1 ha2
    cases hph : addModules (DependencyGraph.mk r [] []) modules with
    | error e =>
      obtain ⟨x, p, q, he⟩ := addModules_error_kind _ _ _ hreg hph
      refine ⟨x, p, q, ?_⟩
      rw [DependencyGraph.topological_sort, hph, he]
    | ok g1 =>
      exfalso
      have h1 := addModules_ok_producer_eq _ _ _ hph m1 hm1 (alookup_nil m1) a ha1
      have h2 := addModules_ok_producer_eq _ _ _ hph m2 hm2 (alookup_nil m2) a ha2
      rw [h1] at h2
      cases h2
      exact hm12 rfl

/-- Witness for C5: a stale producer map conflicting with a new module,
and two concrete modules both producing `a`. -/
theorem c5_witness :
    ((DependencyGraph.mk dupRegistry [] [("a", "p")]).add_module "p2" =
      .error (.multipleProducers "a" "p" "p2")) ∧
    (∃ x p q, (DependencyGraph.mk dupRegistry [] []).topological_sort ["p", "p2"] =
      .error (.multipleProducers x p q)) :=
  ⟨c5_multiple_producers.1 (DependencyGraph.mk dupRegistry [] [("a", "p")]) "p2"
      (wMeta "p2" [] ["a"]) [] "a" [] "p" (by decide) (by decide) (by decide)
      (by decide) (by decide) (by decide) (by decide),
    c5_multiple_producers.2 dupRegistry ["p", "p2"] "p" "p2" "a" (by decide)
      (by decide) (by decide) (by decide) (by decide) (by decide)⟩

/-- Counterexample to claim C6 as stated: over `selfLoopRegistry`, whose
module `m` produces and requires the artifact `a`, `add_module "m"`
records `m` in its own dependency set — the produces loop fills the
producer map before the requires loop reads it, so a self-loop edge is
created. -/
theorem c6_counterexample :
    (DependencyGraph.mk selfLoopRegistry [] []).add_module "m" = .ok selfLoopResult ∧
    "m" ∈ graphGet selfLoopResult.graph "m" := by
  constructor
  · rfl
  · decide

/-- Claim C6 amended: a module CAN appear in its own dependency set.
Whenever `add_module` succeeds on a module that requires an artifact it
itself produces, the module is recorded as that artifact's producer
before its requires list is processed, so the module is inserted into
its own dependency set (a self-loop edge, later reported as a circular
dependency by `topological_sort`). -/
theorem c6_self_loop_created (g : DependencyGraph) (mn a : String) (md : ModuleMetadata)
    (g' : DependencyGraph)
    (hmeta : g.registry.get_metadata mn = some md)
    (hprod : a ∈ md.produces) (hreq : a ∈ md.requires)
    (hok : g.add_module mn = .ok g') :
    mn ∈ graphGet g'.graph mn := by
  obtain ⟨md2, hmd2, _, hprod2, hfresh2, hnd2, hgraph2⟩ := add_module_ok_inv _ _ _ hok
  rw [hmeta] at hmd2
  cases hmd2
  have hlook : alookup g'.producers a = some mn := by
    rw [hprod2, alookup_append_right _ _ _ (hfresh2 a hprod)]
    exact alookup_pairs_mem _ _ _ hprod
  have hmem : mn ∈ buildDeps g'.producers md.requires :=
    (buildDeps_mem g'.producers md.requires mn).mpr ⟨a, hreq, hlook⟩
  rw [hgraph2, graphGet, alookup_aset_self]
  exact hmem

/-- Witness for the amended C6 at the concrete self-producing module. -/
theorem c6_witness :
    (selfLoopRegistry.get_metadata "m" = some (wMeta "m" ["a"] ["a"])) ∧
    ("a" ∈ (wMeta "m" ["a"] ["a"]).produces) ∧
    ("a" ∈ (wMeta "m" ["a"] ["a"]).requires) ∧
    ((DependencyGraph.mk selfLoopRegistry [] []).add_module "m" = .ok selfLoopResult) ∧
    "m" ∈ graphGet selfLoopResult.graph "m" :=
  ⟨by decide, by decide, by decide, by rfl,
    c6_self_loop_created (DependencyGraph.mk selfLoopRegistry [] []) "m" "a"
      (wMeta "m" ["a"] ["a"]) selfLoopResult (by decide) (by decide) (by decide) (by rfl)⟩

theorem producersFor_lookup_of_covered (r : ModuleRegistry) (ms : List String) (a : String)
    (h : ∃ p ∈ ms, a ∈ producesOf r p) :
    ∃ q, alookup (producersFor r ms) a = some q ∧ q ∈ ms := by
  cases hl : alookup (producersFor r ms) a with
  | none =>
    obtain ⟨p, hp, ha⟩ := h
    exact absurd ha ((producersFor_lookup_none_iff r ms a).mp hl p hp)
  | some q =>
    exact ⟨q, rfl, (producersFor_lookup_some r ms a q hl).1⟩

theorem findRegistryProducer_true_iff (r : ModuleRegistry) (ra o : String) :
    ((match r.get_metadata o with
      | some om => decide (ra ∈ om.produces)
      | none => false) = true) ↔ ra ∈ producesOf r o := by
  cases h : r.get_metadata o <;> simp [producesOf, h]

/-- Claim C3: on a fresh validation call, when `(m, ra)` is the first
selected module / required artifact pair without a producer inside the
selection, `validate_dependencies` raises the missing-dependency error:
the "producer not included" variant naming the first registry module
producing `ra` when one exists, else the "no producer exists" variant
naming the artifact, the requiring module and the selected list.  The
two variants are distinguished exactly by whether any registry module
produces the artifact. -/
theorem c3_validate_missing (r : ModuleRegistry) (modules : List String)
    (hreg : ∀ m ∈ modules, (r.get_metadata m).isSome)
    (hnd : modules.Nodup)
    (hjoin : ((modules.map (fun m => producesOf r m)).flatten).Nodup)
    (mpre : List String) (m : String) (mpost : List String)
    (hsplit : modules = mpre ++ m :: mpost)
    (md : ModuleMetadata) (hmd : r.get_metadata m = some md)
    (hpre : ∀ mp ∈ mpre, ∀ a ∈ requiresOf r mp, ∃ p ∈ modules, a ∈ producesOf r p)
    (rpre : List String) (ra : String) (rrest : List String)
    (hrsplit : md.requires = rpre ++ ra :: rrest)
    (hrpre : ∀ a ∈ rpre, ∃ p ∈ modules, a ∈ producesOf r p)
    (hfail : ∀ p ∈ modules, ra ∉ producesOf r p) :
    ((DependencyGraph.mk r [] []).validate_dependencies modules =
      .error (match findRegistryProducer r ra with
        | some other => .missingNotIncluded m ra other
        | none => .missingNoProducer m ra modules)) ∧
    ((findRegistryProducer r ra = none) ↔ ∀ o ∈ r.list_modules, ra ∉ producesOf r o) ∧
    (∀ other, findRegistryProducer r ra = some other →
      other ∈ r.list_modules ∧ ra ∈ producesOf r other) := by
  subst hsplit
  obtain ⟨g1, hrun, hreg1, hprod1, _, _⟩ :=
    addModules_ok_of (DependencyGraph.mk r [] []) (mpre ++ m :: mpost) hreg
      (fun x _ => alookup_nil x) hnd (fun x _ a _ => alookup_nil a) hjoin
  have hprod1' : g1.producers = producersFor r (mpre ++ m :: mpost) := by
    rw [hprod1]
    simp [producersFor]
  refine ⟨?_, ?_, ?_⟩
  · rw [DependencyGraph.validate_dependencies, hrun]
    dsimp only
    rw [checkModules_append_ok g1 (mpre ++ m :: mpost) mpre (m :: mpost) ?hpreok]
    case hpreok =>
      intro mp hmp md' hmd'
      apply checkRequires_all_ok
      intro a ha
      have hreq : a ∈ requiresOf r mp := by
        rw [hreg1] at hmd'
        rw [requiresOf, hmd']
        exact ha
      obtain ⟨q, hq, hqm⟩ :=
        producersFor_lookup_of_covered r (mpre ++ m :: mpost) a (hpre mp hmp a hreq)
      exact ⟨q, by rw [hprod1']; exact hq, hqm⟩
    rw [checkModules]
    rw [show g1.registry.get_metadata m = some md from by rw [hreg1]; exact hmd]
    dsimp only
    rw [hrsplit, checkRequires_append_ok g1 (mpre ++ m :: mpost) m rpre (ra :: rrest) ?hrpok]
    case hrpok =>
      intro a ha
      obtain ⟨q, hq, hqm⟩ :=
        producersFor_lookup_of_covered r (mpre ++ m :: mpost) a (hrpre a ha)
      exact ⟨q, by rw [hprod1']; exact hq, hqm⟩
    rw [checkRequires]
    rw [show alookup g1.producers ra = none from by
      rw [hprod1']
      exact (producersFor_lookup_none_iff r (mpre ++ m :: mpost) ra).mpr hfail]
    dsimp only
    rw [show g1.registry = r from hreg1]
    cases hf : findRegistryProducer r ra with
    | some other => rfl
    | none => rfl
  · rw [findRegistryProducer, List.find?_eq_none]
    constructor
    · intro h o ho hmem
      exact h o ho ((findRegistryProducer_true_iff r ra o).mpr hmem)
    · intro h o ho hmem
      exact h o ho ((findRegistryProducer_true_iff r ra o).mp hmem)
  · intro other hf
    rw [findRegistryProducer] at hf
    have hp := @List.find?_some _ _ _ _ hf
    have hp2 : (match r.get_metadata other with
        | some om => decide (ra ∈ om.produces)
        | none => false) = true := hp
    exact ⟨@List.mem_of_find?_eq_some _ _ _ _ hf,
      (findRegistryProducer_true_iff r ra other).mp hp2⟩

/-- Witness for C3: `q` requires `a`, whose only producer `p` is
registered but not selected. -/
theorem c3_witness :
    ((∀ x ∈ ["q"], (needRegistry.get_metadata x).isSome) ∧
      (["q"] : List String).Nodup ∧
      ((["q"].map (fun x => producesOf needRegistry x)).flatten).Nodup ∧
      (["q"] : List String) = [] ++ "q" :: [] ∧
      needRegistry.get_metadata "q" = some (wMeta "q" ["a"] []) ∧
      (wMeta "q" ["a"] []).requires = [] ++ "a" :: [] ∧
      (∀ p ∈ ["q"], "a" ∉ producesOf needRegistry p)) ∧
    ((DependencyGraph.mk needRegistry [] []).validate_dependencies ["q"] =
      .error (match findRegistryProducer needRegistry "a" with
        | some other => .missingNotIncluded "q" "a" other
        | none => .missingNoProducer "q" "a" ["q"])) ∧
    ((findRegistryProducer needRegistry "a" = none) ↔
      ∀ o ∈ needRegistry.list_modules, "a" ∉ producesOf needRegistry o) ∧
    (∀ other, findRegistryProducer needRegistry "a" = some other →
      other ∈ needRegistry.list_modules ∧ "a" ∈ producesOf needRegistry other) :=
  ⟨⟨by decide, by decide, by decide, by decide, by decide, by decide, by decide⟩,
    c3_validate_missing needRegistry ["q"] (by decide) (by decide) (by decide)
      [] "q" [] (by decide) (wMeta "q" ["a"] []) (by decide)
      (by intro mp hmp; cases hmp) [] "a" [] (by decide)
      (by intro a ha; cases ha) (by decide)⟩

theorem rebuildGraph_idem (r : ModuleRegistry) (ps : List (String × String))
    (ms : List String) (G : List (String × List String))
    (h : ∀ m ∈ ms, ∀ md, r.get_metadata m = some md →
      alookup G m = some (rebuildDeps ps ms md.requires)) :
    rebuildGraph r ps ms G = G :=
  rebuildGraph_go_idem r ps ms ms G h

/-- Counterexample to claim C7 as stated: after a successful
`topological_sort ["p"]` over `dupRegistry`, the retained producer map
makes a second call with `["p2"]` on the same instance raise a
multiple-producers error, while the same call on a fresh graph
succeeds — the working state is not transient across calls. -/
theorem c7_counterexample :
    ((DependencyGraph.mk dupRegistry [] []).topological_sort ["p"] =
      .ok (staleGraph, ["p"])) ∧
    staleGraph.topological_sort ["p2"] = .error (.multipleProducers "a" "p" "p2") ∧
    (DependencyGraph.mk dupRegistry [] []).topological_sort ["p2"] ≠
      staleGraph.topological_sort ["p2"] :=
  ⟨by decide, by decide, by decide⟩

/-- Claim C7 amended: state is retained across calls, so a later call
with a different selection can diverge from a fresh graph; but
repeating the same selection after a successful `topological_sort` on a
fresh instance returns the identical state and ordered list. -/
theorem c7_repeat_same_selection (r : ModuleRegistry) (modules : List String)
    (g1 : DependencyGraph) (res : List String)
    (h : (DependencyGraph.mk r [] []).topological_sort modules = .ok (g1, res)) :
    g1.topological_sort modules = .ok (g1, res) := by
  rw [DependencyGraph.topological_sort] at h
  cases hph : addModules (DependencyGraph.mk r [] []) modules with
  | error e =>
    rw [hph] at h
    cases h
  | ok ga =>
    rw [hph] at h
    dsimp only at h
    split at h
    case isFalse hlen => cases h
    case isTrue hlen =>
      injection h with h2
      injection h2 with h3 h4
      subst h3
      subst h4
      have hregga := addModules_registry _ _ _ hph
      have hpres : ∀ m ∈ modules,
          (alookup (rebuildGraph ga.registry ga.producers modules ga.graph) m).isSome := by
        intro m hm
        rcases addModules_ok_metadata _ _ _ hph m hm with hleft | hright
        · rw [alookup_nil] at hleft
          cases hleft
        · obtain ⟨md, hmd⟩ := Option.isSome_iff_exists.mp hright
          rw [rebuildGraph_lookup_mem ga.registry ga.producers modules ga.graph m md hm
            (by rw [hregga]; exact hmd)]
          rfl
      have hidem : rebuildGraph ga.registry ga.producers modules
          (rebuildGraph ga.registry ga.producers modules ga.graph) =
          rebuildGraph ga.registry ga.producers modules ga.graph := by
        apply rebuildGraph_idem
        intro m hm md hmd
        exact rebuildGraph_lookup_mem ga.registry ga.producers modules ga.graph m md hm hmd
      rw [DependencyGraph.topological_sort]
      rw [addModules_all_present
        ⟨ga.registry, rebuildGraph ga.registry ga.producers modules ga.graph, ga.producers⟩
        modules hpres]
      dsimp only
      rw [hidem]
      rw [if_pos hlen]

/-- Witness for the amended C7: repeating `["p"]` over `dupRegistry`. -/
theorem c7_witness :
    ((DependencyGraph.mk dupRegistry [] []).topological_sort ["p"] =
      .ok (staleGraph, ["p"])) ∧
    staleGraph.topological_sort ["p"] = .ok (staleGraph, ["p"]) :=
  ⟨by decide,
    c7_repeat_same_selection dupRegistry ["p"] staleGraph ["p"] (by decide)⟩

/-- Claim C8: `register` raises the duplicate-registration error exactly
when the name is already registered; the error names the previously
registered owner module class; and on this error the module mapping is
returned unchanged. -/
theorem c8_register_duplicate (r : ModuleRegistry) (name : String)
    (cls : CommandModuleClass) (phase : String) (req prod : Option (List String))
    (desc plat : Option String) (enb : Bool) :
    ((r.register name cls phase req prod desc plat enb).2.isSome ↔
      (r.get_metadata name).isSome) ∧
    (∀ e, (r.register name cls phase req prod desc plat enb).2 = some e →
      ∃ md, r.get_metadata name = some md ∧
        e = .duplicateModule name md.module_class.className) ∧
    ((r.register name cls phase req prod desc plat enb).2.isSome →
      (r.register name cls phase req prod desc plat enb).1 = r) := by
  cases hl : alookup r.modules name with
  | some existing =>
    rw [ModuleRegistry.register]
    rw [hl]
    refine ⟨?_, ?_, ?_⟩
    · rw [ModuleRegistry.get_metadata, hl]
      simp
    · intro e he
      dsimp only at he
      cases he
      exact ⟨existing, by rw [ModuleRegistry.get_metadata, hl], rfl⟩
    · intro _
      rfl
  | none =>
    rw [ModuleRegistry.register]
    rw [hl]
    refine ⟨?_, ?_, ?_⟩
    · rw [ModuleRegistry.get_metadata, hl]
      simp
    · intro e he
      dsimp only at he
      cases he
    · intro hs
      dsimp only at hs
      cases hs

/-- Witness for C8: registering `m` a second time over `oneRegistry`. -/
theorem c8_witness :
    ((oneRegistry.register "m" wClassB "build" none none none none true).2.isSome ↔
      (oneRegistry.get_metadata "m").isSome) ∧
    (∀ e, (oneRegistry.register "m" wClassB "build" none none none none true).2 = some e →
      ∃ md, oneRegistry.get_metadata "m" = some md ∧
        e = .duplicateModule "m" md.module_class.className) ∧
    ((oneRegistry.register "m" wClassB "build" none none none none true).2.isSome →
      (oneRegistry.register "m" wClassB "build" none none none none true).1 = oneRegistry) :=
  c8_register_duplicate oneRegistry "m" wClassB "build" none none none none true

/-- Counterexample to claim C9 as stated: adding the path `/p` under the
existing name `built` whose record already holds `/p` does not append
it — `add_path` deduplicates — so the record's path list is `["/p"]`,
not `["/p"] ++ ["/p"]`. -/
theorem c9_counterexample :
    (alookup oneArtifact.artifacts "built").map ArtifactMetadata.paths = some ["/p"] ∧
    (alookup oneArtifactTwice.artifacts "built").map ArtifactMetadata.paths ≠
      some (["/p"] ++ ["/p"]) :=
  ⟨by decide, by decide⟩

/-- Claim C9 amended: each name maps to exactly one record (`add`
preserves key uniqueness); `add` on an existing name appends the path
to that record's path list unless the path is already present (in which
case the list is unchanged) — it never replaces the list — and records
under other names are untouched. -/
theorem c9_add_appends (mgr : ArtifactManager) (name path : String)
    (size : Option Int) (checksum signature : Option String)
    (metadata : Option (List (String × String)))
    (am : ArtifactMetadata) (hex : alookup mgr.artifacts name = some am) :
    (∃ am2, alookup (mgr.add name path size checksum signature metadata).artifacts name =
        some am2 ∧
      am2.paths = (if path ∈ am.paths then am.paths else am.paths ++ [path])) ∧
    (∀ other, other ≠ name →
      alookup (mgr.add name path size checksum signature metadata).artifacts other =
        alookup mgr.artifacts other) ∧
    ((mgr.artifacts.map Prod.fst).Nodup →
      ((mgr.add name path size checksum signature metadata).artifacts.map Prod.fst).Nodup) := by
  rw [ArtifactManager.add, hex]
  dsimp only
  refine ⟨?_, ?_, ?_⟩
  · refine ⟨_, alookup_aset_self _ _ _, ?_⟩
    have hpaths1 : (am.add_path path).paths =
        (if path ∈ am.paths then am.paths else am.paths ++ [path]) := by
      rw [ArtifactMetadata.add_path]
      by_cases hp : path ∈ am.paths
      · rw [if_pos hp, if_pos hp]
      · rw [if_neg hp, if_neg hp]
    cases size <;> cases checksum <;> cases signature <;> cases metadata <;>
      simp only [] <;>
      first
        | exact hpaths1
        | (rename_i md0
           by_cases hmd : md0.isEmpty <;> simp only [hmd, if_pos, if_neg, if_true, if_false] <;>
             exact hpaths1)
  · intro other hother
    exact alookup_aset_ne _ _ _ _ hother
  · intro hnd
    rw [aset_keys_of_mem _ _ _ (by rw [hex]; rfl)]
    exact hnd

/-- Witness for the amended C9 at a concrete record. -/
theorem c9_witness :
    (alookup oneArtifact.artifacts "built" = some ⟨"built", ["/p"], none, none, none, []⟩) ∧
    (∃ am2, alookup (oneArtifact.add "built" "/q" none none none none).artifacts "built" =
        some am2 ∧
      am2.paths = (if "/q" ∈ (["/p"] : List String) then (["/p"] : List String)
        else ["/p"] ++ ["/q"])) ∧
    (∀ other, other ≠ "built" →
      alookup (oneArtifact.add "built" "/q" none none none none).artifacts other =
        alookup oneArtifact.artifacts other) ∧
    ((oneArtifact.artifacts.map Prod.fst).Nodup →
      ((oneArtifact.add "built" "/q" none none none none).artifacts.map Prod.fst).Nodup) :=
  ⟨by decide,
    (c9_add_appends oneArtifact "built" "/q" none none none none
      ⟨"built", ["/p"], none, none, none, []⟩ (by decide)).1,
    (c9_add_appends oneArtifact "built" "/q" none none none none
      ⟨"built", ["/p"], none, none, none, []⟩ (by decide)).2.1,
    (c9_add_appends oneArtifact "built" "/q" none none none none
      ⟨"built", ["/p"], none, none, none, []⟩ (by decide)).2.2⟩

/-- Claim C10: `add_multiple` with an empty path list under a fresh name
creates a record with no paths; afterwards `has` is true while `get`
raises the no-paths `ValueError` rather than the not-found `KeyError`;
and `get` raises the not-found error exactly when the name is absent
from the store. -/
theorem c10_empty_record (mgr : ArtifactManager) (name : String)
    (metadata : Option (List (String × String)))
    (hfresh : alookup mgr.artifacts name = none) :
    (mgr.add_multiple name [] metadata).hasArtifact name = true ∧
    (mgr.add_multiple name [] metadata).get name = .error (.noPaths name) ∧
    (∀ (m : ArtifactManager) (n : String),
      m.get n = .error (.notFound n) ↔ m.hasArtifact n = false) := by
  rw [ArtifactManager.add_multiple, hfresh]
  dsimp only
  refine ⟨?_, ?_, ?_⟩
  · rw [ArtifactManager.hasArtifact, alookup_aset_self]
    rfl
  · rw [ArtifactManager.get, alookup_aset_self]
    rfl
  · intro m n
    rw [ArtifactManager.get, ArtifactManager.hasArtifact]
    cases hl : alookup m.artifacts n with
    | none => simp
    | some am =>
      dsimp only
      cases hp : am.primary_path with
      | none =>
        simp only [Option.isSome_some, Bool.true_eq_false, iff_false]
        intro hc
        cases hc
      | some p =>
        simp only [Option.isSome_some, Bool.true_eq_false, iff_false]
        intro hc
        cases hc

/-- Witness for C10 at the empty store and name `x`. -/
theorem c10_witness :
    ((ArtifactManager.mk []).add_multiple "x" [] none).hasArtifact "x" = true ∧
    ((ArtifactManager.mk []).add_multiple "x" [] none).get "x" = .error (.noPaths "x") ∧
    (∀ (m : ArtifactManager) (n : String),
      m.get n = .error (.notFound n) ↔ m.hasArtifact n = false) :=
  c10_empty_record (ArtifactManager.mk []) "x" none (by decide)
